import Mathlib

/-!
# Verification of the `cloudflare-kv-storage` key codec, validator, pagination and façade

Shallow embedding of the repository's key codec (`src/key-encoding.ts` and the
legacy `src/cf-storage-area-keys.ts`), the key validator (`src/common.ts`),
the cursor pagination helper and the storage-area `set`/`delete` methods
(`src/index.ts`, `index.ts`).

JavaScript platform builtins used by the source (`encodeURIComponent`,
`decodeURIComponent`, `Number(...)`, `Date#toISOString`, `new Date(string)`,
and the `base64-encoding` package) are modelled per their ECMAScript / RFC 4648
semantics on the subdomain the codec exercises:

* JS numbers are modelled by `JSNum`: NaN, the two infinities, and finite
  numbers restricted to exact integers (the decimal integer forms the codec's
  `n:` tag actually produces for them; fractional doubles are outside the
  model).  `jsNumber` models `Number(string)` on decimal-integer and
  `Infinity` forms, mapping everything else to NaN.
* Date values are millisecond instants (`Option Int`, `none` = Invalid Date);
  `toISOString` is implemented with the proleptic-Gregorian civil-date
  algorithm and `jsDateParse` parses exactly the ISO `...Z` format the
  printer emits (other inputs give Invalid Date).
* `encodeURIComponent`/`decodeURIComponent` operate on UTF-8 bytes with the
  ECMAScript unreserved set; base64 is RFC 4648 with padding.
-/

set_option maxRecDepth 10000


namespace KVStorage

/-- A JavaScript number as far as the codec can observe it: NaN, ±Infinity, or
a finite number.  Finite values are modelled as exact integers (see module
doc). -/
inductive JSNum where
  | int (i : Int)
  | nan
  | inf
  | negInf
  deriving DecidableEq, Repr

/-- A JavaScript value of any of the shapes the key pipeline inspects:
strings, numbers, `Date`s (by their millisecond time value, `none` for an
Invalid Date), `ArrayBuffer`s (byte lists), typed-array views (underlying
buffer bytes plus `byteOffset`/`byteLength`), arrays, and the disallowed
shapes `undefined`, `null`, booleans and plain objects. -/
inductive JSValue where
  | str (s : String)
  | num (n : JSNum)
  | date (ms : Option Int)
  | buf (bytes : List Nat)
  | view (buffer : List Nat) (byteOffset byteLength : Nat)
  | arr (elems : List JSValue)
  | undef
  | nullv
  | bool (b : Bool)
  | obj
  deriving Repr

/-- The output type of the IndexedDB "convert a value to a key" pass
(`valueToKey` / `keyToSafeKey`): strings, non-NaN numbers, valid dates,
buffers, and arrays of keys. -/
inductive Key where
  | str (s : String)
  | num (n : JSNum)
  | date (ms : Int)
  | buf (bytes : List Nat)
  | arr (elems : List Key)
  deriving Repr

end KVStorage

namespace KVStorage

/-! ## Character helpers -/

/-- `\w` of JS regexes: ASCII letters, digits, and underscore. -/
def isWordCharJS (c : Char) : Bool :=
  (97 ≤ c.toNat && c.toNat ≤ 122) || (65 ≤ c.toNat && c.toNat ≤ 90) ||
    (48 ≤ c.toNat && c.toNat ≤ 57) || c.toNat = 95

/-- Decimal digit character for `d < 10`. -/
def decChar (d : Nat) : Char := Char.ofNat (48 + d)

/-- Value of a decimal digit character, `none` if not a digit. -/
def decVal (c : Char) : Option Nat :=
  if 48 ≤ c.toNat ∧ c.toNat ≤ 57 then some (c.toNat - 48) else none

/-- Uppercase hexadecimal digit character for `d < 16` (as produced by JS
`encodeURIComponent`). -/
def hexChar (d : Nat) : Char :=
  if d < 10 then Char.ofNat (48 + d) else Char.ofNat (65 + d - 10)

/-- Value of a hexadecimal digit character (either case), `none` otherwise. -/
def hexVal (c : Char) : Option Nat :=
  if 48 ≤ c.toNat ∧ c.toNat ≤ 57 then some (c.toNat - 48)
  else if 65 ≤ c.toNat ∧ c.toNat ≤ 70 then some (c.toNat - 65 + 10)
  else if 97 ≤ c.toNat ∧ c.toNat ≤ 102 then some (c.toNat - 97 + 10)
  else none

/-! ## Decimal printing and `Number(string)` -/

/-- Decimal digit characters of `n`, most significant first, with enough fuel
to exhaust the digits (structural recursion so that values compute). -/
def natDecimalAux : Nat → Nat → List Char
  | 0, _ => []
  | fuel + 1, n =>
    if n < 10 then [decChar n]
    else natDecimalAux fuel (n / 10) ++ [decChar (n % 10)]

/-- Decimal digit characters of `n`, most significant first. -/
def natDecimal (n : Nat) : List Char := natDecimalAux (n + 1) n

/-- The string JS produces for a `JSNum` (template-literal `${key}` in the
source): plain decimal for integers, `NaN`, `Infinity`, `-Infinity`. -/
def numToString : JSNum → String
  | .int i => if i < 0 then String.mk ('-' :: natDecimal (-i).toNat) else String.mk (natDecimal i.toNat)
  | .nan => "NaN"
  | .inf => "Infinity"
  | .negInf => "-Infinity"

/-- Parse a non-empty all-digit character list as a natural number. -/
def parseDigits : List Char → Option Nat
  | [] => none
  | cs => go cs 0
where
  go : List Char → Nat → Option Nat
    | [], acc => some acc
    | c :: rest, acc =>
      match decVal c with
      | some d => go rest (10 * acc + d)
      | none => none

/-- Model of JS `Number(string)` on the forms the codec can produce: the empty
string is `0`, optionally signed decimal integers and `Infinity` parse
exactly, anything else (fractions, exponents, hex, junk) is mapped to NaN. -/
def jsNumber (s : String) : JSNum :=
  match s.data with
  | [] => .int 0
  | c :: rest =>
    if c = '-' then
      if rest = "Infinity".data then .negInf
      else match parseDigits rest with
        | some n => .int (-(n : Int))
        | none => .nan
    else if c = '+' then
      if rest = "Infinity".data then .inf
      else match parseDigits rest with
        | some n => .int (n : Int)
        | none => .nan
    else
      if c :: rest = "Infinity".data then .inf
      else match parseDigits (c :: rest) with
        | some n => .int (n : Int)
        | none => .nan

/-! ## Base64 (model of the `base64-encoding` package, RFC 4648 with padding) -/

/-- Character of the standard base64 alphabet for a sextet `v < 64`. -/
def b64Char (v : Nat) : Char :=
  if v < 26 then Char.ofNat (65 + v)
  else if v < 52 then Char.ofNat (97 + v - 26)
  else if v < 62 then Char.ofNat (48 + v - 52)
  else if v = 62 then '+'
  else '/'

/-- Sextet value of a standard base64 alphabet character. -/
def b64Val (c : Char) : Option Nat :=
  if 65 ≤ c.toNat ∧ c.toNat ≤ 90 then some (c.toNat - 65)
  else if 97 ≤ c.toNat ∧ c.toNat ≤ 122 then some (c.toNat - 97 + 26)
  else if 48 ≤ c.toNat ∧ c.toNat ≤ 57 then some (c.toNat - 48 + 52)
  else if c.toNat = 43 then some 62
  else if c.toNat = 47 then some 63
  else none

/-- RFC 4648 base64 encoding of a byte list, with `=` padding. -/
def b64encodeChars : List Nat → List Char
  | [] => []
  | [b1] => [b64Char (b1 / 4), b64Char (b1 % 4 * 16), '=', '=']
  | [b1, b2] => [b64Char (b1 / 4), b64Char (b1 % 4 * 16 + b2 / 16), b64Char (b2 % 16 * 4), '=']
  | b1 :: b2 :: b3 :: rest =>
    b64Char (b1 / 4) :: b64Char (b1 % 4 * 16 + b2 / 16) :: b64Char (b2 % 16 * 4 + b3 / 64)
      :: b64Char (b3 % 64) :: b64encodeChars rest

/-- Base64 decoding; `none` for input the decoder rejects.  A terminal
`xx==` group decodes one byte, a terminal `xxx=` group two, any other group
of four decodes three; input whose length is not a multiple of four is
rejected. -/
def b64decodeChars : List Char → Option (List Nat)
  | [] => some []
  | c1 :: c2 :: c3 :: c4 :: rest =>
    if c3 = '=' ∧ c4 = '=' ∧ rest = [] then do
      let v1 ← b64Val c1
      let v2 ← b64Val c2
      pure [v1 * 4 + v2 / 16]
    else if c4 = '=' ∧ rest = [] then do
      let v1 ← b64Val c1
      let v2 ← b64Val c2
      let v3 ← b64Val c3
      pure [v1 * 4 + v2 / 16, v2 % 16 * 16 + v3 / 4]
    else do
      let v1 ← b64Val c1
      let v2 ← b64Val c2
      let v3 ← b64Val c3
      let v4 ← b64Val c4
      let tail ← b64decodeChars rest
      pure ((v1 * 4 + v2 / 16) :: (v2 % 16 * 16 + v3 / 4) :: (v3 % 4 * 64 + v4) :: tail)
  | _ => none

/-- String form of `b64encodeChars`. -/
def b64encode (bs : List Nat) : String := String.mk (b64encodeChars bs)

/-! ## Percent-encoding (model of `encodeURIComponent` / `decodeURIComponent`) -/

/-- The characters `encodeURIComponent` leaves unescaped
(`uriAlpha ∪ DecimalDigit ∪ uriMark`). -/
def isURIUnreserved (c : Char) : Bool :=
  (97 ≤ c.toNat && c.toNat ≤ 122) || (65 ≤ c.toNat && c.toNat ≤ 90) ||
    (48 ≤ c.toNat && c.toNat ≤ 57) ||
    c.toNat = 45 || c.toNat = 95 || c.toNat = 46 || c.toNat = 33 || c.toNat = 126 ||
    c.toNat = 42 || c.toNat = 39 || c.toNat = 40 || c.toNat = 41

/-- UTF-8 bytes of a Unicode scalar value. -/
def utf8Bytes (n : Nat) : List Nat :=
  if n < 0x80 then [n]
  else if n < 0x800 then [0xC0 + n / 0x40, 0x80 + n % 0x40]
  else if n < 0x10000 then [0xE0 + n / 0x1000, 0x80 + n / 0x40 % 0x40, 0x80 + n % 0x40]
  else [0xF0 + n / 0x40000, 0x80 + n / 0x1000 % 0x40, 0x80 + n / 0x40 % 0x40, 0x80 + n % 0x40]

/-- `%HH` escape (uppercase hex) of one byte. -/
def pctByte (b : Nat) : List Char := ['%', hexChar (b / 16), hexChar (b % 16)]

/-- `encodeURIComponent` on one character. -/
def eucChar (c : Char) : List Char :=
  if isURIUnreserved c then [c] else (utf8Bytes c.toNat).flatMap pctByte

/-- Model of JS `encodeURIComponent`. -/
def encodeURIComponent (s : String) : String := String.mk (s.data.flatMap eucChar)

mutual

/-- First phase of `decodeURIComponent`: scan the input into tokens, each
`%HH` escape becoming a byte (`Sum.inl`) and every other character passing
through (`Sum.inr`); a malformed escape is a `URIError` (`none`). -/
def pctTokens : List Char → Option (List (Sum Nat Char))
  | [] => some []
  | c :: tail0 =>
    if c = '%' then pctEscape tail0
    else (Sum.inr c :: ·) <$> pctTokens tail0
termination_by structural cs => cs

/-- The two hex digits following a `%`. -/
def pctEscape : List Char → Option (List (Sum Nat Char))
  | h1 :: h2 :: rest =>
    match hexVal h1, hexVal h2 with
    | some d1, some d2 => (Sum.inl (16 * d1 + d2) :: ·) <$> pctTokens rest
    | _, _ => none
  | _ => none
termination_by structural cs => cs

end

mutual

/-- Second phase of `decodeURIComponent`: assemble UTF-8 sequences from the
escaped bytes (continuation bytes must themselves come from escapes; overlong
encodings, surrogate code points and out-of-range values are rejected);
unescaped characters pass through unchanged. -/
def utf8Assemble : List (Sum Nat Char) → Option (List Char)
  | [] => some []
  | Sum.inr c :: rest => (c :: ·) <$> utf8Assemble rest
  | Sum.inl b :: rest =>
    if b < 0x80 then (Char.ofNat b :: ·) <$> utf8Assemble rest
    else if b < 0xC0 then none
    else if b < 0xE0 then assemble2 b rest
    else if b < 0xF0 then assemble3 b rest
    else if b < 0xF5 then assemble4 b rest
    else none
termination_by structural toks => toks

/-- Continuation of `utf8Assemble` after a 2-byte lead `b`. -/
def assemble2 (b : Nat) : List (Sum Nat Char) → Option (List Char)
  | Sum.inl b2 :: rest2 =>
    if 0x80 ≤ b2 ∧ b2 < 0xC0 then
      if 0x80 ≤ (b - 0xC0) * 0x40 + (b2 - 0x80) then
        (Char.ofNat ((b - 0xC0) * 0x40 + (b2 - 0x80)) :: ·) <$> utf8Assemble rest2
      else none
    else none
  | _ => none
termination_by structural toks => toks

/-- Continuation of `utf8Assemble` after a 3-byte lead `b`. -/
def assemble3 (b : Nat) : List (Sum Nat Char) → Option (List Char)
  | Sum.inl b2 :: Sum.inl b3 :: rest3 =>
    if (0x80 ≤ b2 ∧ b2 < 0xC0) ∧ (0x80 ≤ b3 ∧ b3 < 0xC0) then
      if 0x800 ≤ (b - 0xE0) * 0x1000 + (b2 - 0x80) * 0x40 + (b3 - 0x80) ∧
          ((b - 0xE0) * 0x1000 + (b2 - 0x80) * 0x40 + (b3 - 0x80) < 0xD800 ∨
            0xE000 ≤ (b - 0xE0) * 0x1000 + (b2 - 0x80) * 0x40 + (b3 - 0x80)) then
        (Char.ofNat ((b - 0xE0) * 0x1000 + (b2 - 0x80) * 0x40 + (b3 - 0x80)) :: ·) <$>
          utf8Assemble rest3
      else none
    else none
  | _ => none
termination_by structural toks => toks

/-- Continuation of `utf8Assemble` after a 4-byte lead `b`. -/
def assemble4 (b : Nat) : List (Sum Nat Char) → Option (List Char)
  | Sum.inl b2 :: Sum.inl b3 :: Sum.inl b4 :: rest4 =>
    if (0x80 ≤ b2 ∧ b2 < 0xC0) ∧ (0x80 ≤ b3 ∧ b3 < 0xC0) ∧ (0x80 ≤ b4 ∧ b4 < 0xC0) then
      if 0x10000 ≤ (b - 0xF0) * 0x40000 + (b2 - 0x80) * 0x1000 + (b3 - 0x80) * 0x40 + (b4 - 0x80) ∧
          (b - 0xF0) * 0x40000 + (b2 - 0x80) * 0x1000 + (b3 - 0x80) * 0x40 + (b4 - 0x80) < 0x110000 then
        (Char.ofNat ((b - 0xF0) * 0x40000 + (b2 - 0x80) * 0x1000 + (b3 - 0x80) * 0x40 + (b4 - 0x80)) :: ·) <$>
          utf8Assemble rest4
      else none
    else none
  | _ => none
termination_by structural toks => toks

end

/-- Model of JS `decodeURIComponent` on character lists; `none` models a
`URIError`. -/
def decodeURIComponentChars (cs : List Char) : Option (List Char) :=
  (pctTokens cs).bind utf8Assemble

/-- Model of JS `decodeURIComponent` on strings. -/
def decodeURIComponent (s : String) : Option String :=
  (decodeURIComponentChars s.data).map String.mk

/-! ## Dates: `Date#toISOString` and ISO parsing for `new Date(string)`

The proleptic-Gregorian calendar conversion between days-since-epoch and
civil dates, in the standard era/year-of-era formulation. -/

/-- Era (400-year Gregorian cycle index) containing day `z` (days since
1970-01-01). -/
def eraOf (z : Int) : Int := (z + 719468) / 146097

/-- Day-of-era in `[0, 146096]` for day `z`. -/
def doeOf (z : Int) : Nat := ((z + 719468) % 146097).toNat

/-- Year-of-era in `[0, 399]` for a day-of-era. -/
def yoeOf (doe : Nat) : Nat := (doe - doe / 1460 + doe / 36524 - doe / 146096) / 365

/-- Day-of-year (0-based, March-first year) for a day-of-era. -/
def doyOf (doe : Nat) : Nat := doe - (365 * yoeOf doe + yoeOf doe / 4 - yoeOf doe / 100)

/-- Shifted month index in `[0, 11]` (0 = March) for a day-of-era. -/
def mpOf (doe : Nat) : Nat := (5 * doyOf doe + 2) / 153

/-- Day of the month in `[1, 31]` for a day-of-era. -/
def dayOf (doe : Nat) : Nat := doyOf doe - (153 * mpOf doe + 2) / 5 + 1

/-- Civil month in `[1, 12]` for a day-of-era. -/
def monthOf (doe : Nat) : Nat := if mpOf doe < 10 then mpOf doe + 3 else mpOf doe - 9

/-- Civil year for day `z` (days since 1970-01-01). -/
def yearOf (z : Int) : Int :=
  (yoeOf (doeOf z) : Int) + eraOf z * 400 + (if monthOf (doeOf z) ≤ 2 then 1 else 0)

/-- Days since 1970-01-01 of the civil date `y-m-d` (proleptic Gregorian). -/
def daysFromCivil (y : Int) (m d : Nat) : Int :=
  let y2 : Int := if m ≤ 2 then y - 1 else y
  let era : Int := y2 / 400
  let yoe : Nat := (y2 % 400).toNat
  let mp : Nat := if m ≤ 2 then m + 9 else m - 3
  let doy : Nat := (153 * mp + 2) / 5 + d - 1
  let doe : Nat := 365 * yoe + yoe / 4 - yoe / 100 + doy
  era * 146097 + (doe : Int) - 719468

/-- Left-pad the decimal form of `n` with zeros to width `w`. -/
def pad (w n : Nat) : List Char :=
  List.replicate (w - (natDecimal n).length) '0' ++ natDecimal n

/-- Year field of `toISOString`: plain 4 digits for years 0–9999, otherwise
the ECMAScript expanded form (sign plus 6 digits). -/
def yearChars (y : Int) : List Char :=
  if 0 ≤ y ∧ y ≤ 9999 then pad 4 y.toNat
  else if y < 0 then '-' :: pad 6 (-y).toNat
  else '+' :: pad 6 y.toNat

/-- Model of JS `Date#toISOString` for a valid time value `ms`
(`|ms| ≤ 8.64e15`): ISO-8601 UTC with millisecond precision. -/
def toISOString (ms : Int) : String :=
  let days : Int := ms / 86400000
  let rem : Nat := (ms % 86400000).toNat
  let doe := doeOf days
  String.mk (yearChars (yearOf days) ++ '-' :: pad 2 (monthOf doe) ++ '-' :: pad 2 (dayOf doe)
    ++ 'T' :: pad 2 (rem / 3600000) ++ ':' :: pad 2 (rem % 3600000 / 60000)
    ++ ':' :: pad 2 (rem % 60000 / 1000) ++ '.' :: pad 3 (rem % 1000) ++ ['Z'])

/-- Read exactly `k` decimal digits, folding them onto `acc`. -/
def readFixed : Nat → List Char → Nat → Option (Nat × List Char)
  | 0, cs, acc => some (acc, cs)
  | _ + 1, [], _ => none
  | k + 1, c :: cs, acc =>
    match decVal c with
    | some d => readFixed k cs (10 * acc + d)
    | none => none

/-- Expect a single character at the head of the input. -/
def expectChar (c : Char) : List Char → Option (List Char)
  | x :: rest => if x = c then some rest else none
  | [] => none

/-- Year field parser: `±YYYYYY` expanded form or plain `YYYY`. -/
def parseYearPart : List Char → Option (Int × List Char)
  | [] => none
  | c :: rest =>
    if c = '+' then
      match readFixed 6 rest 0 with
      | some (y, r) => some ((y : Int), r)
      | none => none
    else if c = '-' then
      match readFixed 6 rest 0 with
      | some (y, r) => some ((-(y : Int) : Int), r)
      | none => none
    else
      match readFixed 4 (c :: rest) 0 with
      | some (y, r) => some ((y : Int), r)
      | none => none

/-- Final step of ISO parsing: field range checks, reassembly of the time
value, and the ECMAScript time-value range check. -/
def finishISO (ys : Int) (mo d hh mi ss ms3 : Nat) : Option Int :=
  if 1 ≤ mo ∧ mo ≤ 12 ∧ 1 ≤ d ∧ d ≤ 31 ∧ hh ≤ 24 ∧ mi ≤ 59 ∧ ss ≤ 59 then
    if -8640000000000000 ≤ daysFromCivil ys mo d * 86400000 +
          ((hh * 3600000 + mi * 60000 + ss * 1000 + ms3 : Nat) : Int) ∧
        daysFromCivil ys mo d * 86400000 +
          ((hh * 3600000 + mi * 60000 + ss * 1000 + ms3 : Nat) : Int) ≤ 8640000000000000 then
      some (daysFromCivil ys mo d * 86400000 +
        ((hh * 3600000 + mi * 60000 + ss * 1000 + ms3 : Nat) : Int))
    else none
  else none

/-- Millisecond field and closing `Z` (with end of input). -/
def parseMs (ys : Int) (mo d hh mi ss : Nat) (r : List Char) : Option Int :=
  match readFixed 3 r 0 with
  | some (ms3, r2) =>
    match expectChar 'Z' r2 with
    | some r3 => if r3 = [] then finishISO ys mo d hh mi ss ms3 else none
    | none => none
  | none => none

/-- Seconds field and the `.` before milliseconds. -/
def parseSec (ys : Int) (mo d hh mi : Nat) (r : List Char) : Option Int :=
  match readFixed 2 r 0 with
  | some (ss, r2) =>
    match expectChar '.' r2 with
    | some r3 => parseMs ys mo d hh mi ss r3
    | none => none
  | none => none

/-- Minutes field and the `:` before seconds. -/
def parseMin (ys : Int) (mo d hh : Nat) (r : List Char) : Option Int :=
  match readFixed 2 r 0 with
  | some (mi, r2) =>
    match expectChar ':' r2 with
    | some r3 => parseSec ys mo d hh mi r3
    | none => none
  | none => none

/-- Hours field and the `:` before minutes. -/
def parseHour (ys : Int) (mo d : Nat) (r : List Char) : Option Int :=
  match readFixed 2 r 0 with
  | some (hh, r2) =>
    match expectChar ':' r2 with
    | some r3 => parseMin ys mo d hh r3
    | none => none
  | none => none

/-- Day field and the `T` before the time of day. -/
def parseDay (ys : Int) (mo : Nat) (r : List Char) : Option Int :=
  match readFixed 2 r 0 with
  | some (d, r2) =>
    match expectChar 'T' r2 with
    | some r3 => parseHour ys mo d r3
    | none => none
  | none => none

/-- Month field and the `-` before the day. -/
def parseMonth (ys : Int) (r : List Char) : Option Int :=
  match readFixed 2 r 0 with
  | some (mo, r2) =>
    match expectChar '-' r2 with
    | some r3 => parseDay ys mo r3
    | none => none
  | none => none

/-- Model of `new Date(string)` on the ISO `YYYY-MM-DDTHH:MM:SS.sssZ` format
(with expanded years) that `toISOString` emits; any other input gives an
Invalid Date (`none`), a restriction of the engine's fuller parser to the
codec-relevant subdomain.  Returns the millisecond time value. -/
def parseISOChars (cs : List Char) : Option Int :=
  match parseYearPart cs with
  | some (ys, r) =>
    match expectChar '-' r with
    | some r2 => parseMonth ys r2
    | none => none
  | none => none

/-- Model of `new Date(string)#valueOf`: `none` is an Invalid Date. -/
def jsDateParse (s : String) : Option Int := parseISOChars s.data

/-! ## The key codec (`key-encoding.ts` / `cf-storage-area-keys.ts`) -/

/-- `TYPED_REP = /^(\w):/`: a word character followed by a colon at the start
of the string. -/
def matchesTypedRep (s : String) : Bool :=
  match s.data with
  | c1 :: c2 :: _ => isWordCharJS c1 && c2 = ':'
  | _ => false

/-- `ARRAY_DELIMITERS = /[\<\|\>]/`. -/
def isDelim (c : Char) : Bool := c = '<' || c = '|' || c = '>'

/-- Whether a string contains one of the reserved delimiter characters. -/
def hasDelim (s : String) : Bool := s.data.any isDelim

mutual

/-- `keyToKeyString` of `key-encoding.ts` (identical, modulo branch order, to
`safeKeyToCompactString` of `cf-storage-area-keys.ts`): stringification of an
already-canonicalized key.  Strings that are empty, match `TYPED_REP` or
contain a delimiter are percent-escaped behind `s:`; other strings encode to
themselves; numbers/dates/buffers get their 2-character tags; arrays wrap
their `|`-joined elements in `<`…`>`. -/
def keyToKeyString : Key → String
  | .str s =>
    if s = "" || matchesTypedRep s || hasDelim s then "s:" ++ encodeURIComponent s else s
  | .num n => "n:" ++ numToString n
  | .date ms => "d:" ++ toISOString ms
  | .buf bs => "b:" ++ b64encode bs
  | .arr ks => "<" ++ keyListToString ks ++ ">"
termination_by structural k => k

/-- `key.map(keyToKeyString).join('|')`. -/
def keyListToString : List Key → String
  | [] => ""
  | [k] => keyToKeyString k
  | k :: rest => keyToKeyString k ++ "|" ++ keyListToString rest
termination_by structural ks => ks

end

mutual

/-- `valueToKey` of `key-encoding.ts` (IndexedDB "convert a value to a key"):
NaN numbers and Invalid Dates throw; strings and buffers pass through; a
typed-array view is copied into a fresh buffer of exactly the viewed region
(`new Uint8Array(input.buffer, input.byteOffset, input.byteLength).slice().buffer`);
arrays are converted elementwise; any other value throws.  The `seen`-set
cycle check of the source cannot fire on the tree-shaped `JSValue` domain and
sparse arrays have no counterpart, so both are omitted. -/
def valueToKey : JSValue → Except Unit Key
  | .num n => if n = .nan then .error () else .ok (.num n)
  | .date ms =>
    match ms with
    | none => .error ()
    | some v => .ok (.date v)
  | .str s => .ok (.str s)
  | .buf bs => .ok (.buf bs)
  | .view buffer off len => .ok (.buf ((buffer.drop off).take len))
  | .arr elems =>
    match valueListToKeys elems with
    | .ok ks => .ok (.arr ks)
    | .error e => .error e
  | _ => .error ()
termination_by structural k => k

/-- Elementwise `valueToKey` over an array's members. -/
def valueListToKeys : List JSValue → Except Unit (List Key)
  | [] => .ok []
  | v :: rest =>
    match valueToKey v, valueListToKeys rest with
    | .ok k, .ok ks => .ok (k :: ks)
    | .error e, _ => .error e
    | _, .error e => .error e
termination_by structural vs => vs

end

mutual

/-- `keyToSafeKey` of the legacy `cf-storage-area-keys.ts`.  Identical to
`valueToKey` except for views: `new Uint8Array(input.buffer).buffer` copies
the whole underlying buffer, ignoring `byteOffset` and `byteLength`. -/
def keyToSafeKey : JSValue → Except Unit Key
  | .num n => if n = .nan then .error () else .ok (.num n)
  | .date ms =>
    match ms with
    | none => .error ()
    | some v => .ok (.date v)
  | .str s => .ok (.str s)
  | .buf bs => .ok (.buf bs)
  | .view buffer _ _ => .ok (.buf buffer)
  | .arr elems =>
    match keyToSafeKeyList elems with
    | .ok ks => .ok (.arr ks)
    | .error e => .error e
  | _ => .error ()
termination_by structural k => k

/-- Elementwise `keyToSafeKey` over an array's members. -/
def keyToSafeKeyList : List JSValue → Except Unit (List Key)
  | [] => .ok []
  | v :: rest =>
    match keyToSafeKey v, keyToSafeKeyList rest with
    | .ok k, .ok ks => .ok (k :: ks)
    | .error e, _ => .error e
    | _, .error e => .error e
termination_by structural vs => vs

end

/-- `encodeKey` of `key-encoding.ts`: `keyToKeyString(valueToKey(key))`;
`.error` models the exceptions thrown for disallowed shapes. -/
def encodeKeyE (v : JSValue) : Except Unit String := (valueToKey v).map keyToKeyString

/-- `encodeKey` of `cf-storage-area-keys.ts`:
`safeKeyToCompactString(keyToSafeKey(key))`. -/
def cfEncodeKeyE (v : JSValue) : Except Unit String := (keyToSafeKey v).map keyToKeyString

/-- `partToKey` of `key-encoding.ts`: tag dispatch for a non-composite part.
`n:` is a `Number(...)` parse, `d:` a `new Date(...)` parse, `b:` a base64
decode, `s:` a percent-decode (`.error` models the `URIError` / decoder
exception); any string without a recognized tag — including a `TYPED_REP`
match with an unknown tag character — is returned verbatim. -/
def partToKey (part : String) : Except Unit JSValue :=
  if matchesTypedRep part then
    let tag := part.data.headD ' '
    let data := String.mk (part.data.drop 2)
    if tag = 'n' then .ok (.num (jsNumber data))
    else if tag = 'd' then .ok (.date (jsDateParse data))
    else if tag = 'b' then
      match b64decodeChars data.data with
      | some bs => .ok (.buf bs)
      | none => .error ()
    else if tag = 's' then
      match decodeURIComponentChars data.data with
      | some cs => .ok (.str (String.mk cs))
      | none => .error ()
    else .ok (.str part)
  else .ok (.str part)

/-- `stringPartToKey` of the legacy `cf-storage-area-keys.ts`: as `partToKey`,
except that on a `TYPED_REP` match with an unrecognized tag character the
`switch` falls through and the function returns `undefined`. -/
def cfStringPartToKey (part : String) : Except Unit JSValue :=
  if matchesTypedRep part then
    let tag := part.data.headD ' '
    let data := String.mk (part.data.drop 2)
    if tag = 'n' then .ok (.num (jsNumber data))
    else if tag = 'd' then .ok (.date (jsDateParse data))
    else if tag = 'b' then
      match b64decodeChars data.data with
      | some bs => .ok (.buf bs)
      | none => .error ()
    else if tag = 's' then
      match decodeURIComponentChars data.data with
      | some cs => .ok (.str (String.mk cs))
      | none => .error ()
    else .ok .undef
  else .ok (.str part)

/-- Outcome of `keyStringToKey` / `compactStringToKey`: a returned value
(`ok`, which may be the JS value `undefined`), the explicit
`throw Error('Malformed key')` (`malformed`), the implicit `TypeError` from
`stack[0].push(...)` on an empty stack (`typeError`), or an exception from
the part converter (`partError`). -/
inductive DecodeResult where
  | ok (v : JSValue)
  | malformed
  | typeError
  | partError
  deriving Repr

/-- The regex-driven scanner loop shared by `keyStringToKey` and
`compactStringToKey`, walked character by character: `prev` tracking becomes
the `pending` accumulator of characters since the last delimiter.  On `<` a
new frame is pushed (pending text is dropped); on `|` and `>` a non-empty
pending substring is flushed through `partFn` onto the top frame (on an empty
stack this is `stack[0].push` on `undefined`, a `TypeError`); on `>` the top
frame is popped and either pushed onto the frame below, or returned if the
stack is now empty (ignoring any remaining input); `stack.shift()` on an
empty stack yields `undefined`, which the source returns as-is.  Exhausting
the input inside the loop throws `'Malformed key'`. -/
def scanKey (partFn : String → Except Unit JSValue) :
    List Char → List (List JSValue) → List Char → DecodeResult
  | [], _, _ => .malformed
  | c :: rest, stack, pending =>
    if c = '<' then scanKey partFn rest ([] :: stack) []
    else if c = '|' then
      if pending = [] then scanKey partFn rest stack []
      else
        match stack with
        | [] => .typeError
        | top :: s =>
          match partFn (String.mk pending) with
          | .error _ => .partError
          | .ok v => scanKey partFn rest ((top ++ [v]) :: s) []
    else if c = '>' then
      if pending = [] then
        match stack with
        | [] => .ok .undef
        | top :: s =>
          match s with
          | [] => .ok (.arr top)
          | next :: s2 => scanKey partFn rest ((next ++ [.arr top]) :: s2) []
      else
        match stack with
        | [] => .typeError
        | top :: s =>
          match partFn (String.mk pending) with
          | .error _ => .partError
          | .ok v =>
            match s with
            | [] => .ok (.arr (top ++ [v]))
            | next :: s2 => scanKey partFn rest ((next ++ [.arr (top ++ [v])]) :: s2) []
    else scanKey partFn rest stack (pending ++ [c])

/-- `keyStringToKey` of `key-encoding.ts` (= `decodeKey`): strings without
delimiters take the single-part fast path, others run the stack scanner. -/
def keyStringToKey (key : String) : DecodeResult :=
  if hasDelim key then scanKey partToKey key.data [] []
  else
    match partToKey key with
    | .ok v => .ok v
    | .error _ => .partError

/-- `compactStringToKey` of `cf-storage-area-keys.ts` (= its `decodeKey`). -/
def compactStringToKey (key : String) : DecodeResult :=
  if hasDelim key then scanKey cfStringPartToKey key.data [] []
  else
    match cfStringPartToKey key with
    | .ok v => .ok v
    | .error _ => .partError

/-! ## Key validator (`common.ts`, duplicated in `cf-storage-area-keys.ts`) -/

/-- `isAllowedAsAKey`: any number or string; otherwise a non-null object that
is an array, a `Date`, a typed-array view, or an `ArrayBuffer`. -/
def isAllowedAsAKey : JSValue → Bool
  | .num _ => true
  | .str _ => true
  | .arr _ => true
  | .date _ => true
  | .view _ _ _ => true
  | .buf _ => true
  | _ => false

/-- `throwForDisallowedKey`: throws unless `isAllowedAsAKey`. -/
def throwForDisallowedKey (key : JSValue) : Except String Unit :=
  if isAllowedAsAKey key then .ok ()
  else .error "kv-storage: The given value is not allowed as a key"

/-! ## Pagination helper (`index.ts` / `src/index.ts`) -/

/-- The options bag passed to `kv.list` (`prefix` and `cursor`; `prefix` is
called `listPrefix` here because `prefix` is not a usable identifier). -/
structure KVListOptions where
  listPrefix : Option String := none
  cursor : Option String := none
  deriving Repr, DecidableEq

/-- One response of the `kv.list` primitive. -/
structure KVListResult where
  keys : List String
  list_complete : Bool
  cursor : Option String
  deriving Repr, DecidableEq

/-- `paginationHelper`: calls the list primitive, yields the page's names,
and re-calls with `{...opts, cursor}` while `list_complete` is false.  The
async generator's complete output stream is returned as one list; `fuel`
bounds the number of round trips and `none` models a run that did not reach
completion within it. -/
def paginationHelper (kvList : KVListOptions → KVListResult) (opts : KVListOptions) :
    Nat → Option String → Option (List String)
  | 0, _ => none
  | fuel + 1, cursor =>
    let r := kvList (match cursor with
      | some c => { opts with cursor := some c }
      | none => opts)
    if r.list_complete then some r.keys
    else
      match paginationHelper kvList opts fuel r.cursor with
      | some rest => some (r.keys ++ rest)
      | none => none

/-- Index encoded by a backend cursor token (`none` on the first call). -/
def cursorIndex : Option String → Nat
  | none => 0
  | some s => s.length

/-- A consistent paged backend serving the pages `ps` for the caller prefix
`p0`: page `i` is addressed by a cursor of length `i`, the last page reports
completion, and a call with the wrong prefix is answered with a sentinel page
(so a correct total listing certifies that the prefix was reapplied on every
round trip). -/
def pagesBackend (p0 : Option String) (ps : List (List String)) (o : KVListOptions) :
    KVListResult :=
  if o.listPrefix = p0 then
    let i := cursorIndex o.cursor
    { keys := ps.getD i []
      list_complete := ps.length ≤ i + 1
      cursor := some (String.mk (List.replicate (i + 1) 'c')) }
  else
    { keys := ["UNEXPECTED PREFIX"], list_complete := true, cursor := none }

/-! ## Storage-area `set` / `delete` (`index.ts`, `src/index.ts`,
`cf-storage-area.ts`) -/

/-- A primitive backing-store mutation issued by a storage-area method. -/
inductive KVOp where
  | put (key : String) (value : String)
  | del (key : String)
  deriving Repr, DecidableEq

/-- `CloudflareStorageArea.set` (both `src/index.ts` and `src/src/index.ts`):
validate the key, then `kv.delete(encodeKey(key))` when the value is
`undefined`, else pack and `kv.put`.  `encKey` abstracts `this.#encodeKey`
(plain `encodeKey`, or the namespace-prefixed variant of the Deno build) and
`pack` the packer's serialization; the returned list is the sequence of
backing-store mutations issued. -/
def storageAreaSet {V : Type} (encKey : JSValue → Except Unit String) (pack : V → String)
    (key : JSValue) (value : Option V) : Except String (List KVOp) :=
  match throwForDisallowedKey key with
  | .error e => .error e
  | .ok () =>
    match value with
    | none =>
      match encKey key with
      | .ok k => .ok [.del k]
      | .error _ => .error "InvalidKeyError"
    | some v =>
      match encKey key with
      | .ok k => .ok [.put k (pack v)]
      | .error _ => .error "InvalidKeyError"

/-- `CloudflareStorageArea.delete`: validate, then `kv.delete(encodeKey(key))`. -/
def storageAreaDelete (encKey : JSValue → Except Unit String) (key : JSValue) :
    Except String (List KVOp) :=
  match throwForDisallowedKey key with
  | .error e => .error e
  | .ok () =>
    match encKey key with
    | .ok k => .ok [.del k]
    | .error _ => .error "InvalidKeyError"

/-- `KVStorageArea.set` (second module of `src/src/index.ts`, likewise
`cf-storage-area.ts`): the `value === undefined` branch deletes *before* any
key validation; otherwise validate, pack and put. -/
def kvStorageAreaSet {V : Type} (pack : V → String) (key : JSValue) (value : Option V) :
    Except String (List KVOp) :=
  match value with
  | none =>
    match encodeKeyE key with
    | .ok k => .ok [.del k]
    | .error _ => .error "InvalidKeyError"
  | some v =>
    match throwForDisallowedKey key with
    | .error e => .error e
    | .ok () =>
      match encodeKeyE key with
      | .ok k => .ok [.put k (pack v)]
      | .error _ => .error "InvalidKeyError"

/-! ## Specification-side predicates for the round-trip claims -/

mutual

/-- The allowed-key domain of the round-trip claim, restricted to the
faithfully modelled JS subdomain: any string; non-NaN numbers whose finite
values are exactly representable integers; valid `Date`s (time values within
±8.64e15); byte-valued buffers; views whose extent lies inside their buffer;
arrays of such keys (the tree shape itself rules out cycles and holes). -/
def isAllowedKeyVal : JSValue → Bool
  | .str _ => true
  | .num n =>
    match n with
    | .nan => false
    | .int i => i.natAbs ≤ 2 ^ 53
    | _ => true
  | .date ms =>
    match ms with
    | none => false
    | some v => v.natAbs ≤ 8640000000000000
  | .buf bs => bs.all (· < 256)
  | .view buffer off len => buffer.all (· < 256) && decide (off + len ≤ buffer.length)
  | .arr elems => isAllowedKeyValList elems
  | _ => false
termination_by structural k => k

/-- `isAllowedKeyVal` over an array's members. -/
def isAllowedKeyValList : List JSValue → Bool
  | [] => true
  | v :: rest => isAllowedKeyVal v && isAllowedKeyValList rest
termination_by structural vs => vs

end

mutual

/-- The value a full round trip is expected to return under
`key-encoding.ts`: the identity except that a typed-array view comes back as
a buffer of exactly the viewed bytes. -/
def expectedRoundTrip : JSValue → JSValue
  | .str s => .str s
  | .num n => .num n
  | .date ms => .date ms
  | .buf bs => .buf bs
  | .view buffer off len => .buf ((buffer.drop off).take len)
  | .arr elems => .arr (expectedRoundTripList elems)
  | v => v
termination_by structural k => k

/-- `expectedRoundTrip` over an array's members. -/
def expectedRoundTripList : List JSValue → List JSValue
  | [] => []
  | v :: rest => expectedRoundTrip v :: expectedRoundTripList rest
termination_by structural vs => vs

end

mutual

/-- The value a full round trip returns under the legacy
`cf-storage-area-keys.ts`: as `expectedRoundTrip`, except a view comes back
as a buffer of its *entire underlying buffer*. -/
def cfExpectedRoundTrip : JSValue → JSValue
  | .str s => .str s
  | .num n => .num n
  | .date ms => .date ms
  | .buf bs => .buf bs
  | .view buffer _ _ => .buf buffer
  | .arr elems => .arr (cfExpectedRoundTripList elems)
  | v => v
termination_by structural k => k

/-- `cfExpectedRoundTrip` over an array's members. -/
def cfExpectedRoundTripList : List JSValue → List JSValue
  | [] => []
  | v :: rest => cfExpectedRoundTrip v :: cfExpectedRoundTripList rest
termination_by structural vs => vs

end

mutual

/-- The `JSValue` denoted by a canonicalized key (what a decode of its
encoding should yield). -/
def keyAsValue : Key → JSValue
  | .str s => .str s
  | .num n => .num n
  | .date ms => .date (some ms)
  | .buf bs => .buf bs
  | .arr ks => .arr (keyListAsValues ks)
termination_by structural k => k

/-- `keyAsValue` over a key list. -/
def keyListAsValues : List Key → List JSValue
  | [] => []
  | k :: rest => keyAsValue k :: keyListAsValues rest
termination_by structural ks => ks

end

mutual

/-- Well-formedness of a canonicalized key (established by `valueToKey` on
the allowed domain): byte-valued buffers, bounded integers, dates in the
valid time-value range. -/
def validSafeKey : Key → Bool
  | .str _ => true
  | .num n =>
    match n with
    | .nan => false
    | .int i => i.natAbs ≤ 2 ^ 53
    | _ => true
  | .date ms => ms.natAbs ≤ 8640000000000000
  | .buf bs => bs.all (· < 256)
  | .arr ks => validSafeKeyList ks
termination_by structural k => k

/-- `validSafeKey` over a key list. -/
def validSafeKeyList : List Key → Bool
  | [] => true
  | k :: rest => validSafeKey k && validSafeKeyList rest
termination_by structural ks => ks

end

/-- Encode with `key-encoding.ts` and decode the result; `none` when the
encode step itself threw. -/
def decodeAfterEncode (v : JSValue) : Option DecodeResult :=
  match encodeKeyE v with
  | .ok s => some (keyStringToKey s)
  | .error _ => none

/-- Encode with `cf-storage-area-keys.ts` and decode the result; `none` when
the encode step itself threw. -/
def cfDecodeAfterEncode (v : JSValue) : Option DecodeResult :=
  match cfEncodeKeyE v with
  | .ok s => some (compactStringToKey s)
  | .error _ => none

/-! ## Basic character lemmas -/

theorem char_toNat_inj {a b : Char} (h : a.toNat = b.toNat) : a = b :=
  Char.eq_of_val_eq (UInt32.toNat.inj h)

theorem char_valid_toNat (c : Char) :
    c.toNat < 0xD800 ∨ (0xE000 ≤ c.toNat ∧ c.toNat < 0x110000) := by
  have h := c.valid
  unfold UInt32.isValidChar Nat.isValidChar at h
  show c.val.toNat < _ ∨ _ ≤ c.val.toNat ∧ c.val.toNat < _
  omega

theorem toNat_ofNat_valid {n : Nat} (h : Nat.isValidChar n) : (Char.ofNat n).toNat = n := by
  unfold Char.ofNat
  rw [dif_pos h]
  rfl

theorem toNat_ofNat_small {n : Nat} (h : n < 0xD800) : (Char.ofNat n).toNat = n :=
  toNat_ofNat_valid (Or.inl h)

theorem decChar_toNat {d : Nat} (h : d < 10) : (decChar d).toNat = 48 + d :=
  toNat_ofNat_small (by omega)

theorem decVal_decChar {d : Nat} (h : d < 10) : decVal (decChar d) = some d := by
  unfold decVal
  rw [decChar_toNat h, if_pos (by omega)]
  congr 1
  omega

theorem hexVal_hexChar {d : Nat} (h : d < 16) : hexVal (hexChar d) = some d := by
  unfold hexChar hexVal
  by_cases h10 : d < 10
  · rw [if_pos h10, toNat_ofNat_small (by omega), if_pos (by omega)]
    congr 1
    omega
  · rw [if_neg h10, toNat_ofNat_small (by omega), if_neg (by omega), if_pos (by omega)]
    congr 1
    omega

theorem hexChar_toNat {d : Nat} (h : d < 16) :
    (hexChar d).toNat = if d < 10 then 48 + d else 55 + d := by
  unfold hexChar
  by_cases h10 : d < 10
  · rw [if_pos h10, if_pos h10, toNat_ofNat_small (by omega)]
  · rw [if_neg h10, if_neg h10, toNat_ofNat_small (by omega)]
    omega

theorem b64Char_toNat {v : Nat} (h : v < 64) :
    (b64Char v).toNat =
      if v < 26 then 65 + v else if v < 52 then 97 + v - 26
      else if v < 62 then 48 + v - 52 else if v = 62 then 43 else 47 := by
  unfold b64Char
  split_ifs <;> first
  | exact toNat_ofNat_small (by omega)
  | rfl

theorem b64Val_b64Char {v : Nat} (h : v < 64) : b64Val (b64Char v) = some v := by
  unfold b64Val
  rw [b64Char_toNat h]
  split_ifs <;> (congr 1; omega)

/-! ## Decimal digit-string lemmas -/

/-- Left-to-right decimal value of a digit-character list. -/
def digitsVal (cs : List Char) (acc : Nat) : Nat :=
  cs.foldl (fun a c => 10 * a + (c.toNat - 48)) acc

/-- A list of decimal digit characters. -/
def allDigits (cs : List Char) : Prop := ∀ c ∈ cs, 48 ≤ c.toNat ∧ c.toNat ≤ 57

theorem digitsVal_nil (acc : Nat) : digitsVal [] acc = acc := rfl

theorem digitsVal_append (xs ys : List Char) (acc : Nat) :
    digitsVal (xs ++ ys) acc = digitsVal ys (digitsVal xs acc) := by
  simp [digitsVal]

theorem natDecimalAux_spec {fuel n : Nat} (h : n < fuel) :
    allDigits (natDecimalAux fuel n) ∧ 1 ≤ (natDecimalAux fuel n).length ∧
      (∀ acc, digitsVal (natDecimalAux fuel n) acc =
        acc * 10 ^ (natDecimalAux fuel n).length + n) ∧
      (∀ w, n < 10 ^ w → 1 ≤ w → (natDecimalAux fuel n).length ≤ w) := by
  induction fuel generalizing n with
  | zero => omega
  | succ fuel ih =>
    rw [natDecimalAux]
    by_cases h10 : n < 10
    · rw [if_pos h10]
      refine ⟨?_, by simp, ?_, ?_⟩
      · intro c hc
        simp only [List.mem_singleton] at hc
        subst hc
        rw [decChar_toNat h10]
        omega
      · intro acc
        simp [digitsVal, decChar_toNat h10]
        omega
      · intro w _ h1
        simpa using h1
    · rw [if_neg h10]
      have hrec : n / 10 < fuel := by omega
      obtain ⟨hd, hlen, hval, hwid⟩ := ih hrec
      refine ⟨?_, ?_, ?_, ?_⟩
      · intro c hc
        rcases List.mem_append.mp hc with hc | hc
        · exact hd c hc
        · simp only [List.mem_singleton] at hc
          subst hc
          rw [decChar_toNat (by omega)]
          omega
      · simp
      · intro acc
        rw [digitsVal_append, List.length_append]
        simp only [List.length_singleton]
        rw [hval acc]
        simp [digitsVal, decChar_toNat (show n % 10 < 10 by omega)]
        ring_nf
        omega
      · intro w hw h1
        rw [List.length_append, List.length_singleton]
        have h2 : 2 ≤ w := by
          by_contra hcon
          interval_cases w
          omega
        have : n / 10 < 10 ^ (w - 1) := by
          have : 10 ^ w = 10 ^ (w - 1) * 10 := by
            rw [← pow_succ]
            congr 1
            omega
          omega
        have := hwid (w - 1) this (by omega)
        omega

theorem natDecimal_spec (n : Nat) :
    allDigits (natDecimal n) ∧ 1 ≤ (natDecimal n).length ∧
      (∀ acc, digitsVal (natDecimal n) acc = acc * 10 ^ (natDecimal n).length + n) ∧
      (∀ w, n < 10 ^ w → 1 ≤ w → (natDecimal n).length ≤ w) :=
  natDecimalAux_spec (Nat.lt_succ_self n)

theorem digitsVal_natDecimal (n : Nat) : digitsVal (natDecimal n) 0 = n := by
  have h := (natDecimal_spec n).2.2.1 0
  simpa using h

theorem digitsVal_cons (c : Char) (cs : List Char) (acc : Nat) :
    digitsVal (c :: cs) acc = digitsVal cs (10 * acc + (c.toNat - 48)) := rfl

theorem decVal_of_digit {c : Char} (h1 : 48 ≤ c.toNat) (h2 : c.toNat ≤ 57) :
    decVal c = some (c.toNat - 48) := by
  unfold decVal
  rw [if_pos ⟨h1, h2⟩]

theorem readFixed_digits (ds rest : List Char) (acc : Nat) (h : allDigits ds) :
    readFixed ds.length (ds ++ rest) acc = some (digitsVal ds acc, rest) := by
  induction ds generalizing acc with
  | nil => rfl
  | cons c cs ih =>
    have hc := h c (List.mem_cons_self c cs)
    have hcs : allDigits cs := fun x hx => h x (List.mem_cons_of_mem c hx)
    rw [List.length_cons, List.cons_append, readFixed, decVal_of_digit hc.1 hc.2,
      digitsVal_cons]
    exact ih _ hcs

theorem pad_allDigits (w n : Nat) : allDigits (pad w n) := by
  intro c hc
  rcases List.mem_append.mp hc with hc | hc
  · rw [List.eq_of_mem_replicate hc]
    exact ⟨by decide, by decide⟩
  · exact (natDecimal_spec n).1 c hc

theorem pad_length {w n : Nat} (h : n < 10 ^ w) (h1 : 1 ≤ w) : (pad w n).length = w := by
  have hle := (natDecimal_spec n).2.2.2 w h h1
  unfold pad
  rw [List.length_append, List.length_replicate]
  omega

theorem digitsVal_zeros (k : Nat) : digitsVal (List.replicate k '0') 0 = 0 := by
  induction k with
  | zero => rfl
  | succ k ih =>
    rw [List.replicate_succ, digitsVal_cons]
    simpa using ih

theorem digitsVal_pad (w n : Nat) : digitsVal (pad w n) 0 = n := by
  unfold pad
  rw [digitsVal_append, digitsVal_zeros, digitsVal_natDecimal]

theorem readFixed_pad {w n : Nat} (rest : List Char) (h : n < 10 ^ w) (h1 : 1 ≤ w) :
    readFixed w (pad w n ++ rest) 0 = some (n, rest) := by
  have hrf := readFixed_digits (pad w n) rest 0 (pad_allDigits w n)
  rw [pad_length h h1, digitsVal_pad] at hrf
  exact hrf

theorem parseDigits_go_digits (ds : List Char) (acc : Nat) (h : allDigits ds) :
    parseDigits.go ds acc = some (digitsVal ds acc) := by
  induction ds generalizing acc with
  | nil => rfl
  | cons c cs ih =>
    have hc := h c (List.mem_cons_self c cs)
    have hcs : allDigits cs := fun x hx => h x (List.mem_cons_of_mem c hx)
    rw [parseDigits.go, decVal_of_digit hc.1 hc.2, digitsVal_cons]
    exact ih _ hcs

theorem parseDigits_natDecimal (n : Nat) : parseDigits (natDecimal n) = some n := by
  have hlen := (natDecimal_spec n).2.1
  have hd := (natDecimal_spec n).1
  have hval := digitsVal_natDecimal n
  match hnd : natDecimal n with
  | [] => rw [hnd] at hlen; simp at hlen
  | c :: cs =>
    rw [hnd] at hd hval
    rw [show parseDigits (c :: cs) = parseDigits.go (c :: cs) 0 from rfl,
      parseDigits_go_digits _ _ hd, hval]

/-! ## `Number(String(x))` round trip -/

theorem natDecimal_head_digit (n : Nat) :
    ∃ c cs, natDecimal n = c :: cs ∧ 48 ≤ c.toNat ∧ c.toNat ≤ 57 := by
  have hlen := (natDecimal_spec n).2.1
  have hd := (natDecimal_spec n).1
  match hnd : natDecimal n with
  | [] => rw [hnd] at hlen; simp at hlen
  | c :: cs =>
    rw [hnd] at hd
    exact ⟨c, cs, rfl, hd c (List.mem_cons_self c cs)⟩

theorem natDecimal_ne_Infinity (n : Nat) : natDecimal n ≠ "Infinity".data := by
  obtain ⟨c, cs, hnd, h1, h2⟩ := natDecimal_head_digit n
  rw [hnd]
  intro hcon
  have hInf : "Infinity".data = 'I' :: "nfinity".data := rfl
  rw [hInf] at hcon
  injection hcon with hc _
  rw [hc] at h1 h2
  exact absurd h2 (by decide)

theorem jsNumber_numToString {x : JSNum} (hx : x ≠ .nan) :
    jsNumber (numToString x) = x := by
  cases x with
  | nan => exact absurd rfl hx
  | inf => rfl
  | negInf => rfl
  | int i =>
    have hnum : numToString (JSNum.int i) =
        (if i < 0 then String.mk ('-' :: natDecimal (-i).toNat)
         else String.mk (natDecimal i.toNat)) := rfl
    rw [hnum]
    by_cases hneg : i < 0
    · rw [if_pos hneg]
      have hred : jsNumber (String.mk ('-' :: natDecimal (-i).toNat)) =
          (if natDecimal (-i).toNat = "Infinity".data then JSNum.negInf
           else match parseDigits (natDecimal (-i).toNat) with
             | some n => JSNum.int (-(n : Int))
             | none => JSNum.nan) := rfl
      rw [hred, if_neg (natDecimal_ne_Infinity _), parseDigits_natDecimal]
      have hcast : (((-i).toNat : Nat) : Int) = -i := Int.toNat_of_nonneg (by omega)
      show JSNum.int (-(((-i).toNat : Nat) : Int)) = JSNum.int i
      rw [hcast]
      simp
    · rw [if_neg hneg]
      obtain ⟨c, cs, hnd, h1, h2⟩ := natDecimal_head_digit i.toNat
      rw [hnd]
      have hred : jsNumber (String.mk (c :: cs)) =
          (if c = '-' then
            if cs = "Infinity".data then JSNum.negInf
            else match parseDigits cs with
              | some n => JSNum.int (-(n : Int))
              | none => JSNum.nan
          else if c = '+' then
            if cs = "Infinity".data then JSNum.inf
            else match parseDigits cs with
              | some n => JSNum.int (n : Int)
              | none => JSNum.nan
          else
            if c :: cs = "Infinity".data then JSNum.inf
            else match parseDigits (c :: cs) with
              | some n => JSNum.int (n : Int)
              | none => JSNum.nan) := rfl
      have hcm : ¬ c = '-' := by
        intro hc
        rw [hc] at h1
        exact absurd h1 (by decide)
      have hcp : ¬ c = '+' := by
        intro hc
        rw [hc] at h1
        exact absurd h1 (by decide)
      have hcInf : ¬ (c :: cs = "Infinity".data) := by
        rw [← hnd]
        exact natDecimal_ne_Infinity _
      rw [hred, if_neg hcm, if_neg hcp, if_neg hcInf, ← hnd, parseDigits_natDecimal]
      have hcast : ((i.toNat : Nat) : Int) = i := Int.toNat_of_nonneg (by omega)
      show JSNum.int ((i.toNat : Nat) : Int) = JSNum.int i
      rw [hcast]

/-! ## Base64 round trip -/

theorem b64Char_ne_pad {v : Nat} (h : v < 64) : ¬ b64Char v = '=' := by
  intro hc
  have hn := congrArg Char.toNat hc
  rw [b64Char_toNat h] at hn
  have h61 : ('=' : Char).toNat = 61 := rfl
  rw [h61] at hn
  split_ifs at hn <;> omega

theorem b64decodeChars_cons4 (c1 c2 c3 c4 : Char) (rest : List Char) :
    b64decodeChars (c1 :: c2 :: c3 :: c4 :: rest) =
      (if c3 = '=' ∧ c4 = '=' ∧ rest = [] then do
        let v1 ← b64Val c1
        let v2 ← b64Val c2
        pure [v1 * 4 + v2 / 16]
      else if c4 = '=' ∧ rest = [] then do
        let v1 ← b64Val c1
        let v2 ← b64Val c2
        let v3 ← b64Val c3
        pure [v1 * 4 + v2 / 16, v2 % 16 * 16 + v3 / 4]
      else do
        let v1 ← b64Val c1
        let v2 ← b64Val c2
        let v3 ← b64Val c3
        let v4 ← b64Val c4
        let tail ← b64decodeChars rest
        pure ((v1 * 4 + v2 / 16) :: (v2 % 16 * 16 + v3 / 4) :: (v3 % 4 * 64 + v4) :: tail)) :=
  rfl

theorem b64decode_encode_aux (n : Nat) :
    ∀ bs : List Nat, bs.length ≤ n → (∀ b ∈ bs, b < 256) →
      b64decodeChars (b64encodeChars bs) = some bs := by
  induction n with
  | zero =>
    intro bs hlen _
    have : bs = [] := List.eq_nil_of_length_eq_zero (by omega)
    subst this
    rfl
  | succ n ih =>
    intro bs hlen hb
    match bs with
    | [] => rfl
    | [b1] =>
      have h1 : b1 < 256 := hb b1 (by simp)
      show b64decodeChars [b64Char (b1 / 4), b64Char (b1 % 4 * 16), '=', '='] = some [b1]
      rw [b64decodeChars_cons4, if_pos ⟨rfl, rfl, rfl⟩,
        b64Val_b64Char (by omega), b64Val_b64Char (by omega)]
      show some [b1 / 4 * 4 + b1 % 4 * 16 / 16] = some [b1]
      congr 1
      rw [List.cons.injEq]
      exact ⟨by omega, rfl⟩
    | [b1, b2] =>
      have h1 : b1 < 256 := hb b1 (by simp)
      have h2 : b2 < 256 := hb b2 (by simp)
      show b64decodeChars [b64Char (b1 / 4), b64Char (b1 % 4 * 16 + b2 / 16),
        b64Char (b2 % 16 * 4), '='] = some [b1, b2]
      rw [b64decodeChars_cons4,
        if_neg (by
          rintro ⟨hc, -⟩
          exact b64Char_ne_pad (by omega) hc),
        if_pos ⟨rfl, rfl⟩,
        b64Val_b64Char (by omega), b64Val_b64Char (by omega), b64Val_b64Char (by omega)]
      show some [b1 / 4 * 4 + (b1 % 4 * 16 + b2 / 16) / 16,
        (b1 % 4 * 16 + b2 / 16) % 16 * 16 + b2 % 16 * 4 / 4] = some [b1, b2]
      congr 1
      rw [List.cons.injEq, List.cons.injEq]
      exact ⟨by omega, by omega, rfl⟩
    | b1 :: b2 :: b3 :: rest =>
      have h1 : b1 < 256 := hb b1 (by simp)
      have h2 : b2 < 256 := hb b2 (by simp)
      have h3 : b3 < 256 := hb b3 (by simp)
      have hrest : ∀ b ∈ rest, b < 256 := fun b hbr => hb b (by simp [hbr])
      have hrlen : rest.length ≤ n := by
        simp only [List.length_cons] at hlen
        omega
      show b64decodeChars (b64Char (b1 / 4) :: b64Char (b1 % 4 * 16 + b2 / 16)
        :: b64Char (b2 % 16 * 4 + b3 / 64) :: b64Char (b3 % 64)
        :: b64encodeChars rest) = some (b1 :: b2 :: b3 :: rest)
      rw [b64decodeChars_cons4,
        if_neg (by
          rintro ⟨hc, -⟩
          exact b64Char_ne_pad (by omega) hc),
        if_neg (by
          rintro ⟨hc, -⟩
          exact b64Char_ne_pad (by omega) hc),
        b64Val_b64Char (by omega), b64Val_b64Char (by omega), b64Val_b64Char (by omega),
        b64Val_b64Char (by omega), ih rest hrlen hrest]
      show some (_ :: _ :: _ :: rest) = some (b1 :: b2 :: b3 :: rest)
      congr 1
      rw [List.cons.injEq, List.cons.injEq, List.cons.injEq]
      exact ⟨by omega, by omega, by omega, rfl⟩

theorem b64decode_encode {bs : List Nat} (h : ∀ b ∈ bs, b < 256) :
    b64decodeChars (b64encodeChars bs) = some bs :=
  b64decode_encode_aux bs.length bs le_rfl h

/-! ## Percent-encoding round trip -/

/-- The token list produced by escaping one character. -/
def charTokens (c : Char) : List (Sum Nat Char) :=
  if isURIUnreserved c then [Sum.inr c] else (utf8Bytes c.toNat).map Sum.inl

theorem unreserved_ne_pct {c : Char} (h : isURIUnreserved c = true) : ¬ c = '%' := by
  intro hc
  simp only [isURIUnreserved, Bool.or_eq_true, Bool.and_eq_true, decide_eq_true_eq] at h
  rw [hc] at h
  have h37 : ('%' : Char).toNat = 37 := rfl
  rw [h37] at h
  omega

theorem pctTokens_pctByte {b : Nat} (hb : b < 256) (rest : List Char) :
    pctTokens (pctByte b ++ rest) = (Sum.inl b :: ·) <$> pctTokens rest := by
  show pctTokens ('%' :: hexChar (b / 16) :: hexChar (b % 16) :: rest) = _
  rw [pctTokens, if_pos rfl, pctEscape,
    hexVal_hexChar (show b / 16 < 16 by omega), hexVal_hexChar (show b % 16 < 16 by omega)]
  show (Sum.inl (16 * (b / 16) + b % 16) :: ·) <$> pctTokens rest = _
  rw [show 16 * (b / 16) + b % 16 = b by omega]

theorem pctTokens_other {c : Char} (h : ¬ c = '%') (rest : List Char) :
    pctTokens (c :: rest) = (Sum.inr c :: ·) <$> pctTokens rest := by
  rw [pctTokens, if_neg h]

theorem utf8Bytes_lt {n : Nat} (hn : n < 0x110000) : ∀ b ∈ utf8Bytes n, b < 256 := by
  intro b hb
  unfold utf8Bytes at hb
  split_ifs at hb <;> simp only [List.mem_cons, List.mem_singleton, List.not_mem_nil,
    or_false] at hb <;> rcases hb with hb | hb | hb | hb <;> omega

theorem pctTokens_flatMapBytes {bs : List Nat} (h : ∀ b ∈ bs, b < 256) (rest : List Char) :
    pctTokens (bs.flatMap pctByte ++ rest) = (bs.map Sum.inl ++ ·) <$> pctTokens rest := by
  induction bs with
  | nil =>
    simp only [List.flatMap_nil, List.nil_append, List.map_nil]
    cases pctTokens rest <;> rfl
  | cons b bs ih =>
    have hb : b < 256 := h b (List.mem_cons_self b bs)
    have hbs : ∀ x ∈ bs, x < 256 := fun x hx => h x (List.mem_cons_of_mem b hx)
    rw [List.flatMap_cons, List.append_assoc, pctTokens_pctByte hb, ih hbs]
    cases pctTokens rest <;> rfl

theorem pctTokens_eucChar (c : Char) (rest : List Char) :
    pctTokens (eucChar c ++ rest) = (charTokens c ++ ·) <$> pctTokens rest := by
  unfold eucChar charTokens
  by_cases hu : isURIUnreserved c
  · rw [if_pos hu, if_pos hu, List.singleton_append, pctTokens_other (unreserved_ne_pct hu)]
    cases pctTokens rest <;> rfl
  · rw [if_neg hu, if_neg hu]
    have hv : c.toNat < 0x110000 := by
      have := char_valid_toNat c
      omega
    exact pctTokens_flatMapBytes (utf8Bytes_lt hv) rest

theorem utf8Assemble_2byte {n : Nat} (h1 : 0x80 ≤ n) (h2 : n < 0x800)
    (toks : List (Sum Nat Char)) :
    utf8Assemble (Sum.inl (0xC0 + n / 0x40) :: Sum.inl (0x80 + n % 0x40) :: toks) =
      (Char.ofNat n :: ·) <$> utf8Assemble toks := by
  rw [utf8Assemble, if_neg (by omega), if_neg (by omega), if_pos (by omega),
    assemble2, if_pos (by omega), if_pos (by omega),
    show (0xC0 + n / 0x40 - 0xC0) * 0x40 + (0x80 + n % 0x40 - 0x80) = n by omega]

theorem utf8Assemble_3byte {n : Nat} (h1 : 0x800 ≤ n) (h2 : n < 0x10000)
    (hs : n < 0xD800 ∨ 0xE000 ≤ n) (toks : List (Sum Nat Char)) :
    utf8Assemble (Sum.inl (0xE0 + n / 0x1000) :: Sum.inl (0x80 + n / 0x40 % 0x40)
      :: Sum.inl (0x80 + n % 0x40) :: toks) =
      (Char.ofNat n :: ·) <$> utf8Assemble toks := by
  have hv : (0xE0 + n / 0x1000 - 0xE0) * 0x1000 + (0x80 + n / 0x40 % 0x40 - 0x80) * 0x40
      + (0x80 + n % 0x40 - 0x80) = n := by omega
  rw [utf8Assemble, if_neg (by omega), if_neg (by omega), if_neg (by omega),
    if_pos (by omega), assemble3, if_pos (by omega), hv, if_pos ⟨by omega, hs⟩]

theorem utf8Assemble_4byte {n : Nat} (h1 : 0x10000 ≤ n) (h2 : n < 0x110000)
    (toks : List (Sum Nat Char)) :
    utf8Assemble (Sum.inl (0xF0 + n / 0x40000) :: Sum.inl (0x80 + n / 0x1000 % 0x40)
      :: Sum.inl (0x80 + n / 0x40 % 0x40) :: Sum.inl (0x80 + n % 0x40) :: toks) =
      (Char.ofNat n :: ·) <$> utf8Assemble toks := by
  have hv : (0xF0 + n / 0x40000 - 0xF0) * 0x40000 + (0x80 + n / 0x1000 % 0x40 - 0x80) * 0x1000
      + (0x80 + n / 0x40 % 0x40 - 0x80) * 0x40 + (0x80 + n % 0x40 - 0x80) = n := by omega
  rw [utf8Assemble, if_neg (by omega), if_neg (by omega), if_neg (by omega),
    if_neg (by omega), if_pos (by omega), assemble4, if_pos (by omega), hv,
    if_pos (by omega)]

theorem utf8Assemble_charTokens (c : Char) (toks : List (Sum Nat Char)) :
    utf8Assemble (charTokens c ++ toks) = (c :: ·) <$> utf8Assemble toks := by
  unfold charTokens
  by_cases hu : isURIUnreserved c
  · rw [if_pos hu]
    rfl
  · rw [if_neg hu]
    have hval := char_valid_toNat c
    unfold utf8Bytes
    by_cases hc1 : c.toNat < 0x80
    · rw [if_pos hc1]
      show utf8Assemble (Sum.inl c.toNat :: toks) = _
      rw [utf8Assemble, if_pos hc1, Char.ofNat_toNat]
    · rw [if_neg hc1]
      by_cases hc2 : c.toNat < 0x800
      · rw [if_pos hc2]
        show utf8Assemble (Sum.inl (0xC0 + c.toNat / 0x40)
          :: Sum.inl (0x80 + c.toNat % 0x40) :: toks) = _
        rw [utf8Assemble_2byte (by omega) hc2, Char.ofNat_toNat]
      · rw [if_neg hc2]
        by_cases hc3 : c.toNat < 0x10000
        · rw [if_pos hc3]
          show utf8Assemble (Sum.inl (0xE0 + c.toNat / 0x1000)
            :: Sum.inl (0x80 + c.toNat / 0x40 % 0x40) :: Sum.inl (0x80 + c.toNat % 0x40)
            :: toks) = _
          rw [utf8Assemble_3byte (by omega) hc3 (by omega), Char.ofNat_toNat]
        · rw [if_neg hc3]
          show utf8Assemble (Sum.inl (0xF0 + c.toNat / 0x40000)
            :: Sum.inl (0x80 + c.toNat / 0x1000 % 0x40) :: Sum.inl (0x80 + c.toNat / 0x40 % 0x40)
            :: Sum.inl (0x80 + c.toNat % 0x40) :: toks) = _
          rw [utf8Assemble_4byte (by omega) (by omega), Char.ofNat_toNat]

theorem pctTokens_flat (cs : List Char) :
    pctTokens (cs.flatMap eucChar) = some (cs.flatMap charTokens) := by
  induction cs with
  | nil => rfl
  | cons c cs ih =>
    rw [List.flatMap_cons, pctTokens_eucChar, ih, List.flatMap_cons]
    rfl

theorem utf8Assemble_flat (cs : List Char) :
    utf8Assemble (cs.flatMap charTokens) = some cs := by
  induction cs with
  | nil => rfl
  | cons c cs ih =>
    rw [List.flatMap_cons, utf8Assemble_charTokens, ih]
    rfl

theorem decode_euc_chars (cs : List Char) :
    decodeURIComponentChars (cs.flatMap eucChar) = some cs := by
  unfold decodeURIComponentChars
  rw [pctTokens_flat]
  exact utf8Assemble_flat cs

theorem decodeURIComponent_encodeURIComponent (s : String) :
    decodeURIComponent (encodeURIComponent s) = some s := by
  show (decodeURIComponentChars (s.data.flatMap eucChar)).map String.mk = some s
  rw [decode_euc_chars]
  rfl

/-! ## Calendar lemmas -/

set_option maxHeartbeats 4000000 in
theorem yoe_formula_bounds (doe : Nat) (h2 : doe ≤ 146096) :
    365 * yoeOf doe + yoeOf doe / 4 - yoeOf doe / 100 ≤ doe ∧
      doe - (365 * yoeOf doe + yoeOf doe / 4 - yoeOf doe / 100) ≤ 365 ∧ yoeOf doe ≤ 399 := by
  unfold yoeOf
  have hg : doe / 1460 ≤ 100 := by omega
  set g := doe / 1460 with hgdef
  have he : doe / 36524 ≤ 4 := by omega
  set e := doe / 36524 with hedef
  interval_cases g <;> first
  | omega
  | (interval_cases e <;> omega)

theorem doeOf_le (z : Int) : doeOf z ≤ 146096 := by
  unfold doeOf
  omega

theorem doyOf_le {doe : Nat} (h : doe ≤ 146096) : doyOf doe ≤ 365 := by
  have hb := yoe_formula_bounds doe h
  unfold doyOf
  omega

theorem mpOf_le {doe : Nat} (h : doe ≤ 146096) : mpOf doe ≤ 11 := by
  have hb := doyOf_le h
  unfold mpOf
  omega

theorem monthOf_bounds {doe : Nat} (h : doe ≤ 146096) :
    1 ≤ monthOf doe ∧ monthOf doe ≤ 12 := by
  have hb := mpOf_le h
  unfold monthOf
  split_ifs <;> omega

theorem dayOf_bounds {doe : Nat} (h : doe ≤ 146096) : 1 ≤ dayOf doe ∧ dayOf doe ≤ 31 := by
  have hb := doyOf_le h
  unfold dayOf mpOf
  omega

theorem yearOf_bound {z : Int} (h1 : -100000010 ≤ z) (h2 : z ≤ 100000010) :
    -272000 ≤ yearOf z ∧ yearOf z ≤ 276000 := by
  have hb := (yoe_formula_bounds (doeOf z) (doeOf_le z)).2.2
  have hy : yearOf z = (yoeOf (doeOf z) : Int) + eraOf z * 400 +
      (if monthOf (doeOf z) ≤ 2 then 1 else 0) := rfl
  have he : eraOf z = (z + 719468) / 146097 := rfl
  rw [hy, he]
  split_ifs <;> omega

theorem daysFromCivil_inverse (z : Int) :
    daysFromCivil (yearOf z) (monthOf (doeOf z)) (dayOf (doeOf z)) = z := by
  have hdoeLe : doeOf z ≤ 146096 := doeOf_le z
  have hb := yoe_formula_bounds (doeOf z) hdoeLe
  have hdoyle := doyOf_le hdoeLe
  have hmple := mpOf_le hdoeLe
  have hdoeInt : (doeOf z : Int) = (z + 719468) % 146097 := by
    unfold doeOf
    omega
  have hera : eraOf z = (z + 719468) / 146097 := rfl
  have hdoy : doyOf (doeOf z) = doeOf z -
      (365 * yoeOf (doeOf z) + yoeOf (doeOf z) / 4 - yoeOf (doeOf z) / 100) := rfl
  have hmp : mpOf (doeOf z) = (5 * doyOf (doeOf z) + 2) / 153 := rfl
  have hday : dayOf (doeOf z) = doyOf (doeOf z) - (153 * mpOf (doeOf z) + 2) / 5 + 1 := rfl
  have hmonth : monthOf (doeOf z) =
      if mpOf (doeOf z) < 10 then mpOf (doeOf z) + 3 else mpOf (doeOf z) - 9 := rfl
  have hyear : yearOf z = (yoeOf (doeOf z) : Int) + eraOf z * 400 +
      (if monthOf (doeOf z) ≤ 2 then 1 else 0) := rfl
  simp only [daysFromCivil]
  split_ifs at hmonth hyear ⊢ <;>
    first
    | omega
    | (have e1 : (yearOf z % 400).toNat = yoeOf (doeOf z) := by omega
       have e2 : yearOf z / 400 = eraOf z := by omega
       have e3 : monthOf (doeOf z) - 3 = mpOf (doeOf z) := by omega
       rw [e1, e2, e3]
       have e4 : (153 * mpOf (doeOf z) + 2) / 5 + dayOf (doeOf z) - 1 = doyOf (doeOf z) := by
         omega
       rw [e4]
       omega)
    | (have e1 : ((yearOf z - 1) % 400).toNat = yoeOf (doeOf z) := by omega
       have e2 : (yearOf z - 1) / 400 = eraOf z := by omega
       have e3 : monthOf (doeOf z) + 9 = mpOf (doeOf z) := by omega
       rw [e1, e2, e3]
       have e4 : (153 * mpOf (doeOf z) + 2) / 5 + dayOf (doeOf z) - 1 = doyOf (doeOf z) := by
         omega
       rw [e4]
       omega)

/-! ## ISO-8601 print/parse round trip -/

theorem pad_head_digit (w n : Nat) (h1 : 1 ≤ w) (h : n < 10 ^ w) :
    ∃ c cs, pad w n = c :: cs ∧ 48 ≤ c.toNat ∧ c.toNat ≤ 57 := by
  have hlen := pad_length h h1
  have hd := pad_allDigits w n
  match hp : pad w n with
  | [] =>
    rw [hp] at hlen
    simp at hlen
    omega
  | c :: cs =>
    rw [hp] at hd
    exact ⟨c, cs, rfl, hd c (List.mem_cons_self c cs)⟩

theorem parseYearPart_yearChars {y : Int} (rest : List Char)
    (hy1 : -999999 ≤ y) (hy2 : y ≤ 999999) :
    parseYearPart (yearChars y ++ rest) = some (y, rest) := by
  unfold yearChars
  split_ifs with ha hb
  · obtain ⟨c, cs, hp, hd1, hd2⟩ := pad_head_digit 4 y.toNat (by omega) (by omega)
    rw [hp, List.cons_append, parseYearPart]
    have hne1 : ¬ c = '+' := by
      rintro rfl
      exact absurd hd1 (by decide)
    have hne2 : ¬ c = '-' := by
      rintro rfl
      exact absurd hd1 (by decide)
    rw [if_neg hne1, if_neg hne2, ← List.cons_append, ← hp,
      @readFixed_pad 4 y.toNat rest (by omega) (by decide)]
    show some ((y.toNat : Int), rest) = some (y, rest)
    rw [Int.toNat_of_nonneg ha.1]
  · rw [List.cons_append, parseYearPart, if_neg (by decide), if_pos rfl,
      @readFixed_pad 6 (-y).toNat rest (by omega) (by decide)]
    show some (-((-y).toNat : Int), rest) = some (y, rest)
    rw [Int.toNat_of_nonneg (by omega), neg_neg]
  · rw [List.cons_append, parseYearPart, if_pos rfl,
      @readFixed_pad 6 y.toNat rest (by omega) (by decide)]
    show some ((y.toNat : Int), rest) = some (y, rest)
    rw [Int.toNat_of_nonneg (by omega)]

theorem parseISOChars_fields (y : Int) (mo d hh mi ss ms3 : Nat)
    (hy1 : -999999 ≤ y) (hy2 : y ≤ 999999) (hmo1 : 1 ≤ mo) (hmo2 : mo ≤ 12)
    (hd1 : 1 ≤ d) (hd2 : d ≤ 31) (hhh : hh ≤ 24) (hmi : mi ≤ 59) (hss : ss ≤ 59)
    (hms3 : ms3 ≤ 999)
    (hlo : -8640000000000000 ≤ daysFromCivil y mo d * 86400000 +
      ((hh * 3600000 + mi * 60000 + ss * 1000 + ms3 : Nat) : Int))
    (hhi : daysFromCivil y mo d * 86400000 +
      ((hh * 3600000 + mi * 60000 + ss * 1000 + ms3 : Nat) : Int) ≤ 8640000000000000) :
    parseISOChars (yearChars y ++ '-' :: (pad 2 mo ++ '-' :: (pad 2 d
      ++ 'T' :: (pad 2 hh ++ ':' :: (pad 2 mi ++ ':' :: (pad 2 ss
      ++ '.' :: (pad 3 ms3 ++ ['Z'])))))))
    = some (daysFromCivil y mo d * 86400000 +
        ((hh * 3600000 + mi * 60000 + ss * 1000 + ms3 : Nat) : Int)) := by
  have s1 : ∀ R : List Char,
      parseISOChars (yearChars y ++ '-' :: R) = parseMonth y R := by
    intro R
    unfold parseISOChars
    rw [parseYearPart_yearChars ('-' :: R) hy1 hy2]
    rfl
  have s2 : ∀ R : List Char,
      parseMonth y (pad 2 mo ++ '-' :: R) = parseDay y mo R := by
    intro R
    unfold parseMonth
    rw [@readFixed_pad 2 mo ('-' :: R) (by omega) (by decide)]
    rfl
  have s3 : ∀ R : List Char,
      parseDay y mo (pad 2 d ++ 'T' :: R) = parseHour y mo d R := by
    intro R
    unfold parseDay
    rw [@readFixed_pad 2 d ('T' :: R) (by omega) (by decide)]
    rfl
  have s4 : ∀ R : List Char,
      parseHour y mo d (pad 2 hh ++ ':' :: R) = parseMin y mo d hh R := by
    intro R
    unfold parseHour
    rw [@readFixed_pad 2 hh (':' :: R) (by omega) (by decide)]
    rfl
  have s5 : ∀ R : List Char,
      parseMin y mo d hh (pad 2 mi ++ ':' :: R) = parseSec y mo d hh mi R := by
    intro R
    unfold parseMin
    rw [@readFixed_pad 2 mi (':' :: R) (by omega) (by decide)]
    rfl
  have s6 : ∀ R : List Char,
      parseSec y mo d hh mi (pad 2 ss ++ '.' :: R) = parseMs y mo d hh mi ss R := by
    intro R
    unfold parseSec
    rw [@readFixed_pad 2 ss ('.' :: R) (by omega) (by decide)]
    rfl
  have s7 : parseMs y mo d hh mi ss (pad 3 ms3 ++ ['Z']) =
      finishISO y mo d hh mi ss ms3 := by
    unfold parseMs
    rw [@readFixed_pad 3 ms3 ['Z'] (by omega) (by decide)]
    rfl
  rw [s1, s2, s3, s4, s5, s6, s7]
  unfold finishISO
  rw [if_pos ⟨hmo1, hmo2, hd1, hd2, hhh, hmi, hss⟩, if_pos ⟨hlo, hhi⟩]

theorem jsDateParse_toISOString {ms : Int} (h1 : -8640000000000000 ≤ ms)
    (h2 : ms ≤ 8640000000000000) : jsDateParse (toISOString ms) = some ms := by
  have hDlo : -100000010 ≤ ms / 86400000 := by omega
  have hDhi : ms / 86400000 ≤ 100000010 := by omega
  have hdoe := doeOf_le (ms / 86400000)
  have hmo := monthOf_bounds hdoe
  have hd := dayOf_bounds hdoe
  have hy := yearOf_bound hDlo hDhi
  have hdc := daysFromCivil_inverse (ms / 86400000)
  have hkey := parseISOChars_fields (yearOf (ms / 86400000))
    (monthOf (doeOf (ms / 86400000))) (dayOf (doeOf (ms / 86400000)))
    ((ms % 86400000).toNat / 3600000) ((ms % 86400000).toNat % 3600000 / 60000)
    ((ms % 86400000).toNat % 60000 / 1000) ((ms % 86400000).toNat % 1000)
    (by omega) (by omega) hmo.1 hmo.2 hd.1 hd.2 (by omega) (by omega) (by omega)
    (by omega) (by rw [hdc]; omega) (by rw [hdc]; omega)
  rw [hdc] at hkey
  have hval : ms / 86400000 * 86400000 +
      (((ms % 86400000).toNat / 3600000 * 3600000 +
        (ms % 86400000).toNat % 3600000 / 60000 * 60000 +
        (ms % 86400000).toNat % 60000 / 1000 * 1000 +
        (ms % 86400000).toNat % 1000 : Nat) : Int) = ms := by
    omega
  rw [hval] at hkey
  have hL : jsDateParse (toISOString ms) = parseISOChars
      (yearChars (yearOf (ms / 86400000)) ++ '-' :: pad 2 (monthOf (doeOf (ms / 86400000)))
        ++ '-' :: pad 2 (dayOf (doeOf (ms / 86400000)))
        ++ 'T' :: pad 2 ((ms % 86400000).toNat / 3600000)
        ++ ':' :: pad 2 ((ms % 86400000).toNat % 3600000 / 60000)
        ++ ':' :: pad 2 ((ms % 86400000).toNat % 60000 / 1000)
        ++ '.' :: pad 3 ((ms % 86400000).toNat % 1000) ++ ['Z']) := rfl
  rw [hL]
  simp only [List.cons_append, List.append_assoc]
  exact hkey

/-! ## Delimiter-freedom of the non-composite encodings -/

theorem data_mk (l : List Char) : (String.mk l).data = l := rfl

theorem data_append (a b : String) : (a ++ b).data = a.data ++ b.data := rfl

theorem isDelim_eq_false {c : Char} (h1 : c.toNat ≠ 60) (h2 : c.toNat ≠ 62)
    (h3 : c.toNat ≠ 124) : isDelim c = false := by
  have e1 : ¬ c = '<' := fun h => h1 (by rw [h]; rfl)
  have e2 : ¬ c = '|' := fun h => h3 (by rw [h]; rfl)
  have e3 : ¬ c = '>' := fun h => h2 (by rw [h]; rfl)
  simp [isDelim, e1, e2, e3]

theorem isDelim_of_digit {c : Char} (h1 : 48 ≤ c.toNat) (h2 : c.toNat ≤ 57) :
    isDelim c = false :=
  isDelim_eq_false (by omega) (by omega) (by omega)

theorem pad_no_delim {w n : Nat} {c : Char} (hc : c ∈ pad w n) : isDelim c = false :=
  isDelim_of_digit (pad_allDigits w n c hc).1 (pad_allDigits w n c hc).2

theorem natDecimal_no_delim {n : Nat} {c : Char} (hc : c ∈ natDecimal n) :
    isDelim c = false :=
  isDelim_of_digit ((natDecimal_spec n).1 c hc).1 ((natDecimal_spec n).1 c hc).2

theorem numToString_no_delim (x : JSNum) : ∀ c ∈ (numToString x).data, isDelim c = false := by
  intro c hc
  cases x with
  | int i =>
    rw [show numToString (JSNum.int i) = if i < 0 then String.mk ('-' :: natDecimal (-i).toNat)
      else String.mk (natDecimal i.toNat) from rfl] at hc
    split_ifs at hc
    · rw [data_mk] at hc
      rcases List.mem_cons.mp hc with hc | hc
      · rw [hc]; rfl
      · exact natDecimal_no_delim hc
    · rw [data_mk] at hc
      exact natDecimal_no_delim hc
  | nan => exact (by decide : ∀ x ∈ ("NaN" : String).data, isDelim x = false) c hc
  | inf => exact (by decide : ∀ x ∈ ("Infinity" : String).data, isDelim x = false) c hc
  | negInf =>
    exact (by decide : ∀ x ∈ ("-Infinity" : String).data, isDelim x = false) c hc

theorem yearChars_no_delim {y : Int} : ∀ c ∈ yearChars y, isDelim c = false := by
  intro c hc
  unfold yearChars at hc
  split_ifs at hc
  · exact pad_no_delim hc
  · rcases List.mem_cons.mp hc with hc | hc
    · rw [hc]; rfl
    · exact pad_no_delim hc
  · rcases List.mem_cons.mp hc with hc | hc
    · rw [hc]; rfl
    · exact pad_no_delim hc

theorem append_no_delim {l1 l2 : List Char} (h1 : ∀ c ∈ l1, isDelim c = false)
    (h2 : ∀ c ∈ l2, isDelim c = false) : ∀ c ∈ l1 ++ l2, isDelim c = false := by
  intro c hc
  rcases List.mem_append.mp hc with hc | hc
  · exact h1 c hc
  · exact h2 c hc

theorem cons_no_delim {d : Char} {l : List Char} (hd : isDelim d = false)
    (h : ∀ c ∈ l, isDelim c = false) : ∀ c ∈ d :: l, isDelim c = false := by
  intro c hc
  rcases List.mem_cons.mp hc with hc | hc
  · rw [hc]; exact hd
  · exact h c hc

theorem toISOString_no_delim (ms : Int) :
    ∀ c ∈ (toISOString ms).data, isDelim c = false := by
  have hdata : (toISOString ms).data =
      yearChars (yearOf (ms / 86400000)) ++ '-' :: pad 2 (monthOf (doeOf (ms / 86400000)))
        ++ '-' :: pad 2 (dayOf (doeOf (ms / 86400000)))
        ++ 'T' :: pad 2 ((ms % 86400000).toNat / 3600000)
        ++ ':' :: pad 2 ((ms % 86400000).toNat % 3600000 / 60000)
        ++ ':' :: pad 2 ((ms % 86400000).toNat % 60000 / 1000)
        ++ '.' :: pad 3 ((ms % 86400000).toNat % 1000) ++ ['Z'] := rfl
  rw [hdata]
  exact append_no_delim (append_no_delim (append_no_delim (append_no_delim (append_no_delim
    (append_no_delim (append_no_delim
      (fun c hc => yearChars_no_delim c hc)
      (cons_no_delim rfl fun c hc => pad_no_delim hc))
      (cons_no_delim rfl fun c hc => pad_no_delim hc))
      (cons_no_delim rfl fun c hc => pad_no_delim hc))
      (cons_no_delim rfl fun c hc => pad_no_delim hc))
      (cons_no_delim rfl fun c hc => pad_no_delim hc))
      (cons_no_delim rfl fun c hc => pad_no_delim hc))
      (by decide)

theorem b64Char_no_delim {v : Nat} (h : v < 64) : isDelim (b64Char v) = false := by
  have ht := b64Char_toNat h
  refine isDelim_eq_false ?_ ?_ ?_ <;> rw [ht] <;> split_ifs <;> omega

theorem b64encodeChars_no_delim : ∀ (bs : List Nat), (∀ b ∈ bs, b < 256) →
    ∀ c ∈ b64encodeChars bs, isDelim c = false
  | [], _, c, hc => by simp [b64encodeChars] at hc
  | [b1], h, c, hc => by
    have hb1 := h b1 (by simp)
    simp only [b64encodeChars, List.mem_cons, List.not_mem_nil, or_false] at hc
    rcases hc with hc | hc | hc | hc <;> rw [hc]
    · exact b64Char_no_delim (by omega)
    · exact b64Char_no_delim (by omega)
    · rfl
    · rfl
  | [b1, b2], h, c, hc => by
    have hb1 := h b1 (by simp)
    have hb2 := h b2 (by simp)
    simp only [b64encodeChars, List.mem_cons, List.not_mem_nil, or_false] at hc
    rcases hc with hc | hc | hc | hc <;> rw [hc]
    · exact b64Char_no_delim (by omega)
    · exact b64Char_no_delim (by omega)
    · exact b64Char_no_delim (by omega)
    · rfl
  | b1 :: b2 :: b3 :: rest, h, c, hc => by
    have hb1 := h b1 (by simp)
    have hb2 := h b2 (by simp)
    have hb3 := h b3 (by simp)
    have hrest : ∀ b ∈ rest, b < 256 := fun b hb => h b (by simp [hb])
    rw [show b64encodeChars (b1 :: b2 :: b3 :: rest) =
      b64Char (b1 / 4) :: b64Char (b1 % 4 * 16 + b2 / 16) :: b64Char (b2 % 16 * 4 + b3 / 64)
        :: b64Char (b3 % 64) :: b64encodeChars rest from rfl] at hc
    rcases List.mem_cons.mp hc with hc | hc
    · rw [hc]; exact b64Char_no_delim (by omega)
    rcases List.mem_cons.mp hc with hc | hc
    · rw [hc]; exact b64Char_no_delim (by omega)
    rcases List.mem_cons.mp hc with hc | hc
    · rw [hc]; exact b64Char_no_delim (by omega)
    rcases List.mem_cons.mp hc with hc | hc
    · rw [hc]; exact b64Char_no_delim (by omega)
    exact b64encodeChars_no_delim rest hrest c hc
termination_by bs => bs

theorem hexChar_no_delim {d : Nat} (h : d < 16) : isDelim (hexChar d) = false := by
  have ht := hexChar_toNat h
  refine isDelim_eq_false ?_ ?_ ?_ <;> rw [ht] <;> split_ifs <;> omega

theorem unreserved_no_delim {c : Char} (h : isURIUnreserved c = true) :
    isDelim c = false := by
  simp only [isURIUnreserved, Bool.or_eq_true, Bool.and_eq_true, decide_eq_true_eq] at h
  exact isDelim_eq_false (by omega) (by omega) (by omega)

theorem eucChar_no_delim (c : Char) : ∀ x ∈ eucChar c, isDelim x = false := by
  intro x hx
  unfold eucChar at hx
  split_ifs at hx with hu
  · simp only [List.mem_singleton] at hx
    rw [hx]
    exact unreserved_no_delim hu
  · simp only [List.mem_flatMap] at hx
    obtain ⟨b, hb, hxb⟩ := hx
    have hblt : b < 256 := utf8Bytes_lt (by have := char_valid_toNat c; omega) b hb
    simp only [pctByte, List.mem_cons, List.not_mem_nil, or_false] at hxb
    rcases hxb with hxb | hxb | hxb
    · rw [hxb]; rfl
    · rw [hxb]; exact hexChar_no_delim (by omega)
    · rw [hxb]; exact hexChar_no_delim (by omega)

theorem encodeURIComponent_no_delim (s : String) :
    ∀ c ∈ (encodeURIComponent s).data, isDelim c = false := by
  intro c hc
  rw [show (encodeURIComponent s).data = s.data.flatMap eucChar from rfl] at hc
  simp only [List.mem_flatMap] at hc
  obtain ⟨x, _, hcx⟩ := hc
  exact eucChar_no_delim x c hcx

/-! ## Per-constructor facts about `keyToKeyString` on non-array keys -/

theorem keyEnc_num_no_delim (n : JSNum) :
    ∀ c ∈ (keyToKeyString (.num n)).data, isDelim c = false := by
  have hdata : (keyToKeyString (.num n)).data = 'n' :: ':' :: (numToString n).data := rfl
  rw [hdata]
  exact cons_no_delim rfl (cons_no_delim rfl (numToString_no_delim n))

theorem keyEnc_date_no_delim (v : Int) :
    ∀ c ∈ (keyToKeyString (.date v)).data, isDelim c = false := by
  have hdata : (keyToKeyString (.date v)).data = 'd' :: ':' :: (toISOString v).data := rfl
  rw [hdata]
  exact cons_no_delim rfl (cons_no_delim rfl (toISOString_no_delim v))

theorem keyEnc_buf_no_delim {bs : List Nat} (h : ∀ b ∈ bs, b < 256) :
    ∀ c ∈ (keyToKeyString (.buf bs)).data, isDelim c = false := by
  have hdata : (keyToKeyString (.buf bs)).data = 'b' :: ':' :: b64encodeChars bs := rfl
  rw [hdata]
  exact cons_no_delim rfl (cons_no_delim rfl (b64encodeChars_no_delim bs h))

theorem keyEnc_str_tagged {s : String}
    (hcond : (s = "" || matchesTypedRep s || hasDelim s) = true) :
    keyToKeyString (.str s) = "s:" ++ encodeURIComponent s := by
  rw [show keyToKeyString (.str s) = if s = "" || matchesTypedRep s || hasDelim s then
    "s:" ++ encodeURIComponent s else s from rfl, if_pos hcond]

theorem keyEnc_str_plain {s : String}
    (hcond : ¬ (s = "" || matchesTypedRep s || hasDelim s) = true) :
    keyToKeyString (.str s) = s := by
  rw [show keyToKeyString (.str s) = if s = "" || matchesTypedRep s || hasDelim s then
    "s:" ++ encodeURIComponent s else s from rfl, if_neg hcond]

theorem hasDelim_false_no_delim {s : String} (h : hasDelim s = false) :
    ∀ c ∈ s.data, isDelim c = false := by
  intro c hc
  cases hdc : isDelim c
  · rfl
  · exfalso
    have : hasDelim s = true := by
      unfold hasDelim
      exact List.any_eq_true.mpr ⟨c, hc, hdc⟩
    rw [h] at this
    exact Bool.false_ne_true this

theorem keyEnc_str_no_delim (s : String) :
    ∀ c ∈ (keyToKeyString (.str s)).data, isDelim c = false := by
  by_cases hcond : (s = "" || matchesTypedRep s || hasDelim s) = true
  · rw [keyEnc_str_tagged hcond]
    have hdata : ("s:" ++ encodeURIComponent s).data =
        's' :: ':' :: (encodeURIComponent s).data := rfl
    rw [hdata]
    exact cons_no_delim rfl (cons_no_delim rfl (encodeURIComponent_no_delim s))
  · rw [keyEnc_str_plain hcond]
    have hnd : hasDelim s = false := by
      cases hb : hasDelim s
      · rfl
      · exact absurd (by rw [hb]; simp) hcond
    exact hasDelim_false_no_delim hnd

theorem keyEnc_num_ne_nil (n : JSNum) : (keyToKeyString (.num n)).data ≠ [] := by
  rw [show (keyToKeyString (.num n)).data = 'n' :: ':' :: (numToString n).data from rfl]
  exact List.cons_ne_nil _ _

theorem keyEnc_date_ne_nil (v : Int) : (keyToKeyString (.date v)).data ≠ [] := by
  rw [show (keyToKeyString (.date v)).data = 'd' :: ':' :: (toISOString v).data from rfl]
  exact List.cons_ne_nil _ _

theorem keyEnc_buf_ne_nil (bs : List Nat) : (keyToKeyString (.buf bs)).data ≠ [] := by
  rw [show (keyToKeyString (.buf bs)).data = 'b' :: ':' :: b64encodeChars bs from rfl]
  exact List.cons_ne_nil _ _

theorem keyEnc_str_ne_nil (s : String) : (keyToKeyString (.str s)).data ≠ [] := by
  by_cases hcond : (s = "" || matchesTypedRep s || hasDelim s) = true
  · rw [keyEnc_str_tagged hcond,
      show ("s:" ++ encodeURIComponent s).data = 's' :: ':' :: (encodeURIComponent s).data
        from rfl]
    exact List.cons_ne_nil _ _
  · rw [keyEnc_str_plain hcond]
    intro hnil
    apply hcond
    have hs : s = "" := by
      have h1 : s = String.mk s.data := rfl
      rw [hnil] at h1
      exact h1.trans rfl
    rw [hs]
    simp

/-! ## `partToKey` / `stringPartToKey` recover non-array keys -/

theorem partToKey_num {n : JSNum} (h : ¬ n = .nan) :
    partToKey (keyToKeyString (.num n)) = .ok (.num n) := by
  have hb : partToKey (keyToKeyString (.num n)) =
      .ok (.num (jsNumber (numToString n))) := rfl
  rw [hb, jsNumber_numToString h]

theorem partToKey_date (v : Int) :
    partToKey (keyToKeyString (.date v)) = .ok (.date (jsDateParse (toISOString v))) := rfl

theorem partToKey_date_ok {v : Int} (h : v.natAbs ≤ 8640000000000000) :
    partToKey (keyToKeyString (.date v)) = .ok (.date (some v)) := by
  rw [partToKey_date v, jsDateParse_toISOString (by omega) (by omega)]

theorem partToKey_buf {bs : List Nat} (h : ∀ b ∈ bs, b < 256) :
    partToKey (keyToKeyString (.buf bs)) = .ok (.buf bs) := by
  have hb : partToKey (keyToKeyString (.buf bs)) =
      (match b64decodeChars (b64encodeChars bs) with
       | some l => Except.ok (JSValue.buf l)
       | none => Except.error ()) := rfl
  rw [hb, b64decode_encode h]

theorem partToKey_str (s : String) :
    partToKey (keyToKeyString (.str s)) = .ok (.str s) := by
  by_cases hcond : (s = "" || matchesTypedRep s || hasDelim s) = true
  · rw [keyEnc_str_tagged hcond]
    have hb : partToKey ("s:" ++ encodeURIComponent s) =
        (match decodeURIComponentChars (s.data.flatMap eucChar) with
         | some cs => Except.ok (JSValue.str (String.mk cs))
         | none => Except.error ()) := rfl
    rw [hb, decode_euc_chars s.data]
  · rw [keyEnc_str_plain hcond]
    have hmt : matchesTypedRep s = false := by
      cases hb : matchesTypedRep s
      · rfl
      · exact absurd (by rw [hb]; simp) hcond
    unfold partToKey
    rw [hmt]
    rfl

theorem cfPartToKey_num {n : JSNum} (h : ¬ n = .nan) :
    cfStringPartToKey (keyToKeyString (.num n)) = .ok (.num n) := by
  have hb : cfStringPartToKey (keyToKeyString (.num n)) =
      .ok (.num (jsNumber (numToString n))) := rfl
  rw [hb, jsNumber_numToString h]

theorem cfPartToKey_date {v : Int} (h : v.natAbs ≤ 8640000000000000) :
    cfStringPartToKey (keyToKeyString (.date v)) = .ok (.date (some v)) := by
  have hb : cfStringPartToKey (keyToKeyString (.date v)) =
      .ok (.date (jsDateParse (toISOString v))) := rfl
  rw [hb, jsDateParse_toISOString (by omega) (by omega)]

theorem cfPartToKey_buf {bs : List Nat} (h : ∀ b ∈ bs, b < 256) :
    cfStringPartToKey (keyToKeyString (.buf bs)) = .ok (.buf bs) := by
  have hb : cfStringPartToKey (keyToKeyString (.buf bs)) =
      (match b64decodeChars (b64encodeChars bs) with
       | some l => Except.ok (JSValue.buf l)
       | none => Except.error ()) := rfl
  rw [hb, b64decode_encode h]

theorem cfPartToKey_str (s : String) :
    cfStringPartToKey (keyToKeyString (.str s)) = .ok (.str s) := by
  by_cases hcond : (s = "" || matchesTypedRep s || hasDelim s) = true
  · rw [keyEnc_str_tagged hcond]
    have hb : cfStringPartToKey ("s:" ++ encodeURIComponent s) =
        (match decodeURIComponentChars (s.data.flatMap eucChar) with
         | some cs => Except.ok (JSValue.str (String.mk cs))
         | none => Except.error ()) := rfl
    rw [hb, decode_euc_chars s.data]
  · rw [keyEnc_str_plain hcond]
    have hmt : matchesTypedRep s = false := by
      cases hb : matchesTypedRep s
      · rfl
      · exact absurd (by rw [hb]; simp) hcond
    unfold cfStringPartToKey
    rw [hmt]
    rfl

/-! ## The stack scanner on well-formed encodings -/

theorem scanKey_open (partFn : String → Except Unit JSValue) (rest : List Char)
    (stack : List (List JSValue)) (p : List Char) :
    scanKey partFn ('<' :: rest) stack p = scanKey partFn rest ([] :: stack) [] := rfl

theorem scanKey_pipe_nil (partFn : String → Except Unit JSValue) (rest : List Char)
    (t : List JSValue) (s : List (List JSValue)) :
    scanKey partFn ('|' :: rest) (t :: s) [] = scanKey partFn rest (t :: s) [] := rfl

theorem scanKey_pipe_cons (partFn : String → Except Unit JSValue) (rest : List Char)
    (t : List JSValue) (s : List (List JSValue)) (e0 : Char) (etail : List Char) :
    scanKey partFn ('|' :: rest) (t :: s) (e0 :: etail) =
      (match partFn (String.mk (e0 :: etail)) with
       | .error _ => DecodeResult.partError
       | .ok w => scanKey partFn rest ((t ++ [w]) :: s) []) := rfl

theorem scanKey_close_nil (partFn : String → Except Unit JSValue) (rest : List Char)
    (t : List JSValue) (s : List (List JSValue)) :
    scanKey partFn ('>' :: rest) (t :: s) [] =
      (match s with
       | [] => DecodeResult.ok (.arr t)
       | next :: s2 => scanKey partFn rest ((next ++ [.arr t]) :: s2) []) := rfl

theorem scanKey_close_cons (partFn : String → Except Unit JSValue) (rest : List Char)
    (t : List JSValue) (s : List (List JSValue)) (e0 : Char) (etail : List Char) :
    scanKey partFn ('>' :: rest) (t :: s) (e0 :: etail) =
      (match partFn (String.mk (e0 :: etail)) with
       | .error _ => DecodeResult.partError
       | .ok w =>
         match s with
         | [] => DecodeResult.ok (.arr (t ++ [w]))
         | next :: s2 => scanKey partFn rest ((next ++ [.arr (t ++ [w])]) :: s2) []) := rfl

theorem scanKey_other (partFn : String → Except Unit JSValue) {c : Char}
    (h1 : ¬ c = '<') (h2 : ¬ c = '|') (h3 : ¬ c = '>')
    (rest : List Char) (t : List JSValue) (s : List (List JSValue)) (p : List Char) :
    scanKey partFn (c :: rest) (t :: s) p = scanKey partFn rest (t :: s) (p ++ [c]) := by
  have hb : scanKey partFn (c :: rest) (t :: s) p =
      (if c = '<' then scanKey partFn rest ([] :: t :: s) []
       else if c = '|' then
         (if p = [] then scanKey partFn rest (t :: s) []
          else match partFn (String.mk p) with
            | .error _ => DecodeResult.partError
            | .ok w => scanKey partFn rest ((t ++ [w]) :: s) [])
       else if c = '>' then
         (if p = [] then
            (match s with
             | [] => DecodeResult.ok (.arr t)
             | next :: s2 => scanKey partFn rest ((next ++ [.arr t]) :: s2) [])
          else match partFn (String.mk p) with
            | .error _ => DecodeResult.partError
            | .ok w =>
              match s with
              | [] => DecodeResult.ok (.arr (t ++ [w]))
              | next :: s2 => scanKey partFn rest ((next ++ [.arr (t ++ [w])]) :: s2) [])
       else scanKey partFn rest (t :: s) (p ++ [c])) := rfl
  rw [hb, if_neg h1, if_neg h2, if_neg h3]

theorem scanKey_accum (partFn : String → Except Unit JSValue) :
    ∀ (cs : List Char), (∀ c ∈ cs, isDelim c = false) →
    ∀ (rest : List Char) (t : List JSValue) (s : List (List JSValue)) (p : List Char),
    scanKey partFn (cs ++ rest) (t :: s) p = scanKey partFn rest (t :: s) (p ++ cs)
  | [], _, rest, t, s, p => by simp
  | c :: cs, h, rest, t, s, p => by
    have hc := h c (List.mem_cons_self c cs)
    have hcs : ∀ x ∈ cs, isDelim x = false := fun x hx => h x (List.mem_cons_of_mem c hx)
    have h1 : ¬ c = '<' := by intro hcc; rw [hcc] at hc; exact absurd hc (by decide)
    have h2 : ¬ c = '|' := by intro hcc; rw [hcc] at hc; exact absurd hc (by decide)
    have h3 : ¬ c = '>' := by intro hcc; rw [hcc] at hc; exact absurd hc (by decide)
    rw [List.cons_append, scanKey_other partFn h1 h2 h3,
      scanKey_accum partFn cs hcs rest t s (p ++ [c])]
    simp [List.append_assoc]

theorem scan_flush (partFn : String → Except Unit JSValue) {enc : List Char} {v : JSValue}
    (hne : ¬ enc = []) (hnd : ∀ c ∈ enc, isDelim c = false)
    (hpart : partFn (String.mk enc) = .ok v) (rest : List Char)
    (hrest : rest.head? = some '|' ∨ rest.head? = some '>')
    (t : List JSValue) (s : List (List JSValue)) :
    scanKey partFn (enc ++ rest) (t :: s) [] = scanKey partFn rest ((t ++ [v]) :: s) [] := by
  rw [scanKey_accum partFn enc hnd rest t s []]
  simp only [List.nil_append]
  obtain ⟨e0, etail, rfl⟩ : ∃ e0 etail, enc = e0 :: etail := by
    cases enc with
    | nil => exact absurd rfl hne
    | cons a r => exact ⟨a, r, rfl⟩
  rcases hrest with hr | hr
  · obtain ⟨rest', rfl⟩ : ∃ rest', rest = '|' :: rest' := by
      cases rest with
      | nil => exact absurd hr (by simp)
      | cons a r =>
        simp only [List.head?_cons, Option.some.injEq] at hr
        exact ⟨r, by rw [hr]⟩
    rw [scanKey_pipe_cons, hpart, scanKey_pipe_nil]
  · obtain ⟨rest', rfl⟩ : ∃ rest', rest = '>' :: rest' := by
      cases rest with
      | nil => exact absurd hr (by simp)
      | cons a r =>
        simp only [List.head?_cons, Option.some.injEq] at hr
        exact ⟨r, by rw [hr]⟩
    rw [scanKey_close_cons, hpart, scanKey_close_nil]

mutual

theorem scan_elem (partFn : String → Except Unit JSValue)
    (hstr : ∀ s : String, partFn (keyToKeyString (.str s)) = .ok (.str s))
    (hnum : ∀ n : JSNum, ¬ n = .nan → partFn (keyToKeyString (.num n)) = .ok (.num n))
    (hdate : ∀ v : Int, v.natAbs ≤ 8640000000000000 →
      partFn (keyToKeyString (.date v)) = .ok (.date (some v)))
    (hbuf : ∀ bs : List Nat, (∀ b ∈ bs, b < 256) →
      partFn (keyToKeyString (.buf bs)) = .ok (.buf bs))
    (k : Key) (hk : validSafeKey k = true) (rest : List Char)
    (hrest : rest.head? = some '|' ∨ rest.head? = some '>')
    (t : List JSValue) (s : List (List JSValue)) :
    scanKey partFn ((keyToKeyString k).data ++ rest) (t :: s) [] =
      scanKey partFn rest ((t ++ [keyAsValue k]) :: s) [] :=
  match k with
  | .str str => scan_flush partFn (keyEnc_str_ne_nil str) (keyEnc_str_no_delim str)
      (hstr str) rest hrest t s
  | .num n => by
    have hn : ¬ n = .nan := by
      intro hnn; rw [hnn] at hk; exact absurd hk (by decide)
    exact scan_flush partFn (keyEnc_num_ne_nil n) (keyEnc_num_no_delim n)
      (hnum n hn) rest hrest t s
  | .date v => by
    have hv : v.natAbs ≤ 8640000000000000 := by
      have hdd : validSafeKey (.date v) = decide (v.natAbs ≤ 8640000000000000) := rfl
      rw [hdd] at hk
      exact of_decide_eq_true hk
    exact scan_flush partFn (keyEnc_date_ne_nil v) (keyEnc_date_no_delim v)
      (hdate v hv) rest hrest t s
  | .buf bs => by
    have hb : ∀ b ∈ bs, b < 256 := by
      have hdd : validSafeKey (.buf bs) = bs.all (fun b => decide (b < 256)) := rfl
      rw [hdd] at hk
      intro b hbb
      exact of_decide_eq_true (List.all_eq_true.mp hk b hbb)
    exact scan_flush partFn (keyEnc_buf_ne_nil bs) (keyEnc_buf_no_delim hb)
      (hbuf bs hb) rest hrest t s
  | .arr ks => by
    have hks : validSafeKeyList ks = true := hk
    have hdata : (keyToKeyString (.arr ks)).data =
        '<' :: ((keyListToString ks).data ++ ['>']) := rfl
    rw [hdata, List.cons_append, scanKey_open, List.append_assoc, List.singleton_append,
      scan_list partFn hstr hnum hdate hbuf ks hks rest [] (t :: s)]
    simp only [List.nil_append]
    rw [scanKey_close_nil]
    rfl

theorem scan_list (partFn : String → Except Unit JSValue)
    (hstr : ∀ s : String, partFn (keyToKeyString (.str s)) = .ok (.str s))
    (hnum : ∀ n : JSNum, ¬ n = .nan → partFn (keyToKeyString (.num n)) = .ok (.num n))
    (hdate : ∀ v : Int, v.natAbs ≤ 8640000000000000 →
      partFn (keyToKeyString (.date v)) = .ok (.date (some v)))
    (hbuf : ∀ bs : List Nat, (∀ b ∈ bs, b < 256) →
      partFn (keyToKeyString (.buf bs)) = .ok (.buf bs))
    (ks : List Key) (hks : validSafeKeyList ks = true) (rest : List Char)
    (u : List JSValue) (stack' : List (List JSValue)) :
    scanKey partFn ((keyListToString ks).data ++ '>' :: rest) (u :: stack') [] =
      scanKey partFn ('>' :: rest) ((u ++ keyListAsValues ks) :: stack') [] :=
  match ks with
  | [] => by
    rw [show (keyListToString []).data = ([] : List Char) from rfl, List.nil_append,
      show (keyListAsValues [] : List JSValue) = [] from rfl, List.append_nil]
  | [k] => by
    have hk : validSafeKey k = true := by
      have hdd : validSafeKeyList [k] = (validSafeKey k && validSafeKeyList []) := rfl
      rw [hdd, Bool.and_eq_true] at hks
      exact hks.1
    rw [show keyListToString [k] = keyToKeyString k from rfl,
      show (keyListAsValues [k] : List JSValue) = [keyAsValue k] from rfl,
      scan_elem partFn hstr hnum hdate hbuf k hk ('>' :: rest) (Or.inr rfl) u stack']
  | k1 :: k2 :: restks => by
    have hk1 : validSafeKey k1 = true := by
      have hdd : validSafeKeyList (k1 :: k2 :: restks) =
          (validSafeKey k1 && validSafeKeyList (k2 :: restks)) := rfl
      rw [hdd, Bool.and_eq_true] at hks
      exact hks.1
    have hk2 : validSafeKeyList (k2 :: restks) = true := by
      have hdd : validSafeKeyList (k1 :: k2 :: restks) =
          (validSafeKey k1 && validSafeKeyList (k2 :: restks)) := rfl
      rw [hdd, Bool.and_eq_true] at hks
      exact hks.2
    rw [show keyListToString (k1 :: k2 :: restks) =
        keyToKeyString k1 ++ "|" ++ keyListToString (k2 :: restks) from rfl,
      show (keyToKeyString k1 ++ "|" ++ keyListToString (k2 :: restks)).data =
        ((keyToKeyString k1).data ++ ['|']) ++ (keyListToString (k2 :: restks)).data
        from rfl]
    simp only [List.append_assoc, List.singleton_append, List.cons_append, List.nil_append]
    rw [scan_elem partFn hstr hnum hdate hbuf k1 hk1
        ('|' :: ((keyListToString (k2 :: restks)).data ++ '>' :: rest)) (Or.inl rfl) u stack',
      scanKey_pipe_nil,
      scan_list partFn hstr hnum hdate hbuf (k2 :: restks) hk2 rest
        (u ++ [keyAsValue k1]) stack',
      show keyListAsValues (k1 :: k2 :: restks) =
        keyAsValue k1 :: keyListAsValues (k2 :: restks) from rfl]
    simp [List.append_assoc]

end

theorem hasDelim_eq_false {s : String} (h : ∀ c ∈ s.data, isDelim c = false) :
    hasDelim s = false := by
  unfold hasDelim
  cases hb : s.data.any isDelim
  · rfl
  · obtain ⟨c, hc, hdc⟩ := List.any_eq_true.mp hb
    rw [h c hc] at hdc
    exact absurd hdc (by decide)

theorem keyStringToKey_enc (k : Key) (hk : validSafeKey k = true) :
    keyStringToKey (keyToKeyString k) = .ok (keyAsValue k) := by
  cases k with
  | str s =>
    unfold keyStringToKey
    rw [hasDelim_eq_false (keyEnc_str_no_delim s), partToKey_str s]
    rfl
  | num n =>
    have hn : ¬ n = .nan := by
      intro hnn; rw [hnn] at hk; exact absurd hk (by decide)
    unfold keyStringToKey
    rw [hasDelim_eq_false (keyEnc_num_no_delim n), partToKey_num hn]
    rfl
  | date v =>
    have hv : v.natAbs ≤ 8640000000000000 := by
      have hdd : validSafeKey (.date v) = decide (v.natAbs ≤ 8640000000000000) := rfl
      rw [hdd] at hk
      exact of_decide_eq_true hk
    unfold keyStringToKey
    rw [hasDelim_eq_false (keyEnc_date_no_delim v), partToKey_date_ok hv]
    rfl
  | buf bs =>
    have hb : ∀ b ∈ bs, b < 256 := by
      have hdd : validSafeKey (.buf bs) = bs.all (fun b => decide (b < 256)) := rfl
      rw [hdd] at hk
      intro b hbb
      exact of_decide_eq_true (List.all_eq_true.mp hk b hbb)
    unfold keyStringToKey
    rw [hasDelim_eq_false (keyEnc_buf_no_delim hb), partToKey_buf hb]
    rfl
  | arr ks =>
    have hks : validSafeKeyList ks = true := hk
    have hD : hasDelim (keyToKeyString (.arr ks)) = true := by
      unfold hasDelim
      rw [show (keyToKeyString (.arr ks)).data =
        '<' :: ((keyListToString ks).data ++ ['>']) from rfl]
      rfl
    unfold keyStringToKey
    rw [hD, if_pos rfl,
      show (keyToKeyString (.arr ks)).data =
        '<' :: ((keyListToString ks).data ++ ['>']) from rfl,
      scanKey_open,
      scan_list partToKey partToKey_str (fun _ hn => partToKey_num hn)
        (fun _ hv => partToKey_date_ok hv) (fun _ hb => partToKey_buf hb) ks hks [] [] []]
    simp only [List.nil_append]
    rw [scanKey_close_nil]
    rfl

theorem compactStringToKey_enc (k : Key) (hk : validSafeKey k = true) :
    compactStringToKey (keyToKeyString k) = .ok (keyAsValue k) := by
  cases k with
  | str s =>
    unfold compactStringToKey
    rw [hasDelim_eq_false (keyEnc_str_no_delim s), cfPartToKey_str s]
    rfl
  | num n =>
    have hn : ¬ n = .nan := by
      intro hnn; rw [hnn] at hk; exact absurd hk (by decide)
    unfold compactStringToKey
    rw [hasDelim_eq_false (keyEnc_num_no_delim n), cfPartToKey_num hn]
    rfl
  | date v =>
    have hv : v.natAbs ≤ 8640000000000000 := by
      have hdd : validSafeKey (.date v) = decide (v.natAbs ≤ 8640000000000000) := rfl
      rw [hdd] at hk
      exact of_decide_eq_true hk
    unfold compactStringToKey
    rw [hasDelim_eq_false (keyEnc_date_no_delim v), cfPartToKey_date hv]
    rfl
  | buf bs =>
    have hb : ∀ b ∈ bs, b < 256 := by
      have hdd : validSafeKey (.buf bs) = bs.all (fun b => decide (b < 256)) := rfl
      rw [hdd] at hk
      intro b hbb
      exact of_decide_eq_true (List.all_eq_true.mp hk b hbb)
    unfold compactStringToKey
    rw [hasDelim_eq_false (keyEnc_buf_no_delim hb), cfPartToKey_buf hb]
    rfl
  | arr ks =>
    have hks : validSafeKeyList ks = true := hk
    have hD : hasDelim (keyToKeyString (.arr ks)) = true := by
      unfold hasDelim
      rw [show (keyToKeyString (.arr ks)).data =
        '<' :: ((keyListToString ks).data ++ ['>']) from rfl]
      rfl
    unfold compactStringToKey
    rw [hD, if_pos rfl,
      show (keyToKeyString (.arr ks)).data =
        '<' :: ((keyListToString ks).data ++ ['>']) from rfl,
      scanKey_open,
      scan_list cfStringPartToKey cfPartToKey_str (fun _ hn => cfPartToKey_num hn)
        (fun _ hv => cfPartToKey_date hv) (fun _ hb => cfPartToKey_buf hb) ks hks [] [] []]
    simp only [List.nil_append]
    rw [scanKey_close_nil]
    rfl

/-! ## `valueToKey` / `keyToSafeKey` succeed on the allowed domain -/

mutual

theorem valueToKey_spec (v : JSValue) (h : isAllowedKeyVal v = true) :
    ∃ k, valueToKey v = .ok k ∧ validSafeKey k = true ∧
      keyAsValue k = expectedRoundTrip v :=
  match v with
  | .str s => ⟨.str s, rfl, rfl, rfl⟩
  | .num n => by
    have hn : ¬ n = .nan := by
      intro hnn; rw [hnn] at h; exact absurd h (by decide)
    refine ⟨.num n, ?_, h, rfl⟩
    rw [show valueToKey (.num n) =
      (if n = .nan then Except.error () else Except.ok (Key.num n)) from rfl, if_neg hn]
  | .date ms => by
    match ms with
    | none => exact absurd h (by decide)
    | some x => exact ⟨.date x, rfl, h, rfl⟩
  | .buf bs => ⟨.buf bs, rfl, h, rfl⟩
  | .view buffer off len => by
    refine ⟨.buf ((buffer.drop off).take len), rfl, ?_, rfl⟩
    have hall : buffer.all (fun b => decide (b < 256)) = true := by
      rw [show isAllowedKeyVal (.view buffer off len) =
        (buffer.all (fun b => decide (b < 256)) && decide (off + len ≤ buffer.length))
        from rfl, Bool.and_eq_true] at h
      exact h.1
    rw [show validSafeKey (.buf ((buffer.drop off).take len)) =
      ((buffer.drop off).take len).all (fun b => decide (b < 256)) from rfl]
    rw [List.all_eq_true] at hall ⊢
    intro b hb
    exact hall b (List.mem_of_mem_drop (List.mem_of_mem_take hb))
  | .arr elems => by
    have hl : isAllowedKeyValList elems = true := h
    obtain ⟨ks, h1, h2, h3⟩ := valueListToKeys_spec elems hl
    refine ⟨.arr ks, ?_, h2, ?_⟩
    · rw [show valueToKey (.arr elems) =
        (match valueListToKeys elems with
         | .ok ks => Except.ok (Key.arr ks)
         | .error e => Except.error e) from rfl, h1]
    · rw [show keyAsValue (.arr ks) = .arr (keyListAsValues ks) from rfl, h3,
        show expectedRoundTrip (.arr elems) = .arr (expectedRoundTripList elems) from rfl]
  | .undef => absurd h (by decide)
  | .nullv => absurd h (by decide)
  | .bool b => (Bool.false_ne_true h).elim
  | .obj => absurd h (by decide)

theorem valueListToKeys_spec (vs : List JSValue) (h : isAllowedKeyValList vs = true) :
    ∃ ks, valueListToKeys vs = .ok ks ∧ validSafeKeyList ks = true ∧
      keyListAsValues ks = expectedRoundTripList vs :=
  match vs with
  | [] => ⟨[], rfl, rfl, rfl⟩
  | v :: rest => by
    have hsplit : isAllowedKeyVal v = true ∧ isAllowedKeyValList rest = true := by
      rw [show isAllowedKeyValList (v :: rest) =
        (isAllowedKeyVal v && isAllowedKeyValList rest) from rfl, Bool.and_eq_true] at h
      exact h
    obtain ⟨k, hk1, hk2, hk3⟩ := valueToKey_spec v hsplit.1
    obtain ⟨ks, hks1, hks2, hks3⟩ := valueListToKeys_spec rest hsplit.2
    refine ⟨k :: ks, ?_, ?_, ?_⟩
    · rw [show valueListToKeys (v :: rest) =
        (match valueToKey v, valueListToKeys rest with
         | .ok k, .ok ks => Except.ok (k :: ks)
         | .error e, _ => Except.error e
         | _, .error e => Except.error e) from rfl, hk1, hks1]
    · rw [show validSafeKeyList (k :: ks) = (validSafeKey k && validSafeKeyList ks)
        from rfl, hk2, hks2]
      rfl
    · rw [show keyListAsValues (k :: ks) = keyAsValue k :: keyListAsValues ks from rfl,
        hk3, hks3,
        show expectedRoundTripList (v :: rest) =
          expectedRoundTrip v :: expectedRoundTripList rest from rfl]

end

mutual

theorem keyToSafeKey_spec (v : JSValue) (h : isAllowedKeyVal v = true) :
    ∃ k, keyToSafeKey v = .ok k ∧ validSafeKey k = true ∧
      keyAsValue k = cfExpectedRoundTrip v :=
  match v with
  | .str s => ⟨.str s, rfl, rfl, rfl⟩
  | .num n => by
    have hn : ¬ n = .nan := by
      intro hnn; rw [hnn] at h; exact absurd h (by decide)
    refine ⟨.num n, ?_, h, rfl⟩
    rw [show keyToSafeKey (.num n) =
      (if n = .nan then Except.error () else Except.ok (Key.num n)) from rfl, if_neg hn]
  | .date ms => by
    match ms with
    | none => exact absurd h (by decide)
    | some x => exact ⟨.date x, rfl, h, rfl⟩
  | .buf bs => ⟨.buf bs, rfl, h, rfl⟩
  | .view buffer off len => by
    refine ⟨.buf buffer, rfl, ?_, rfl⟩
    rw [show isAllowedKeyVal (.view buffer off len) =
      (buffer.all (fun b => decide (b < 256)) && decide (off + len ≤ buffer.length))
      from rfl, Bool.and_eq_true] at h
    exact h.1
  | .arr elems => by
    have hl : isAllowedKeyValList elems = true := h
    obtain ⟨ks, h1, h2, h3⟩ := keyToSafeKeyList_spec elems hl
    refine ⟨.arr ks, ?_, h2, ?_⟩
    · rw [show keyToSafeKey (.arr elems) =
        (match keyToSafeKeyList elems with
         | .ok ks => Except.ok (Key.arr ks)
         | .error e => Except.error e) from rfl, h1]
    · rw [show keyAsValue (.arr ks) = .arr (keyListAsValues ks) from rfl, h3,
        show cfExpectedRoundTrip (.arr elems) = .arr (cfExpectedRoundTripList elems)
          from rfl]
  | .undef => absurd h (by decide)
  | .nullv => absurd h (by decide)
  | .bool b => (Bool.false_ne_true h).elim
  | .obj => absurd h (by decide)

theorem keyToSafeKeyList_spec (vs : List JSValue) (h : isAllowedKeyValList vs = true) :
    ∃ ks, keyToSafeKeyList vs = .ok ks ∧ validSafeKeyList ks = true ∧
      keyListAsValues ks = cfExpectedRoundTripList vs :=
  match vs with
  | [] => ⟨[], rfl, rfl, rfl⟩
  | v :: rest => by
    have hsplit : isAllowedKeyVal v = true ∧ isAllowedKeyValList rest = true := by
      rw [show isAllowedKeyValList (v :: rest) =
        (isAllowedKeyVal v && isAllowedKeyValList rest) from rfl, Bool.and_eq_true] at h
      exact h
    obtain ⟨k, hk1, hk2, hk3⟩ := keyToSafeKey_spec v hsplit.1
    obtain ⟨ks, hks1, hks2, hks3⟩ := keyToSafeKeyList_spec rest hsplit.2
    refine ⟨k :: ks, ?_, ?_, ?_⟩
    · rw [show keyToSafeKeyList (v :: rest) =
        (match keyToSafeKey v, keyToSafeKeyList rest with
         | .ok k, .ok ks => Except.ok (k :: ks)
         | .error e, _ => Except.error e
         | _, .error e => Except.error e) from rfl, hk1, hks1]
    · rw [show validSafeKeyList (k :: ks) = (validSafeKey k && validSafeKeyList ks)
        from rfl, hk2, hks2]
      rfl
    · rw [show keyListAsValues (k :: ks) = keyAsValue k :: keyListAsValues ks from rfl,
        hk3, hks3,
        show cfExpectedRoundTripList (v :: rest) =
          cfExpectedRoundTrip v :: cfExpectedRoundTripList rest from rfl]

end

/-! ## Full encode/decode round trips -/

theorem decodeAfterEncode_spec (v : JSValue) (h : isAllowedKeyVal v = true) :
    decodeAfterEncode v = some (.ok (expectedRoundTrip v)) := by
  obtain ⟨k, h1, h2, h3⟩ := valueToKey_spec v h
  unfold decodeAfterEncode encodeKeyE
  rw [h1]
  show some (keyStringToKey (keyToKeyString k)) = _
  rw [keyStringToKey_enc k h2, h3]

theorem cfDecodeAfterEncode_spec (v : JSValue) (h : isAllowedKeyVal v = true) :
    cfDecodeAfterEncode v = some (.ok (cfExpectedRoundTrip v)) := by
  obtain ⟨k, h1, h2, h3⟩ := keyToSafeKey_spec v h
  unfold cfDecodeAfterEncode cfEncodeKeyE
  rw [h1]
  show some (compactStringToKey (keyToKeyString k)) = _
  rw [compactStringToKey_enc k h2, h3]

/-! ## Pagination over a consistent paged backend -/

theorem pagination_step (p0 : Option String) (ps : List (List String)) (m : Nat)
    (c : Option String) (i : Nat) (hc : cursorIndex c = i) :
    paginationHelper (pagesBackend p0 ps) { listPrefix := p0, cursor := none } (m + 1) c =
      (if decide (ps.length ≤ i + 1) = true then some (ps.getD i [])
       else match paginationHelper (pagesBackend p0 ps) { listPrefix := p0, cursor := none } m
           (some (String.mk (List.replicate (i + 1) 'c'))) with
         | some rest => some (ps.getD i [] ++ rest)
         | none => none) := by
  cases c with
  | none =>
    have h0 : 0 = i := hc
    subst h0
    have hpb : pagesBackend p0 ps { listPrefix := p0, cursor := none } =
        { keys := ps.getD 0 [], list_complete := decide (ps.length ≤ 0 + 1),
          cursor := some (String.mk (List.replicate (0 + 1) 'c')) } := by
      unfold pagesBackend
      rw [if_pos rfl]
      rfl
    have hstep : paginationHelper (pagesBackend p0 ps) { listPrefix := p0, cursor := none }
        (m + 1) none =
        (let r := pagesBackend p0 ps { listPrefix := p0, cursor := none };
         if r.list_complete then some r.keys
         else match paginationHelper (pagesBackend p0 ps) { listPrefix := p0, cursor := none }
             m r.cursor with
           | some rest => some (r.keys ++ rest)
           | none => none) := rfl
    rw [hstep, hpb]
  | some s =>
    have h0 : s.length = i := hc
    subst h0
    have hpb : pagesBackend p0 ps { listPrefix := p0, cursor := some s } =
        { keys := ps.getD s.length [], list_complete := decide (ps.length ≤ s.length + 1),
          cursor := some (String.mk (List.replicate (s.length + 1) 'c')) } := by
      unfold pagesBackend
      rw [if_pos rfl]
      rfl
    have hstep : paginationHelper (pagesBackend p0 ps) { listPrefix := p0, cursor := none }
        (m + 1) (some s) =
        (let r := pagesBackend p0 ps { listPrefix := p0, cursor := some s };
         if r.list_complete then some r.keys
         else match paginationHelper (pagesBackend p0 ps) { listPrefix := p0, cursor := none }
             m r.cursor with
           | some rest => some (r.keys ++ rest)
           | none => none) := rfl
    rw [hstep, hpb]

theorem pagination_aux (p0 : Option String) (ps : List (List String)) :
    ∀ (m i : Nat) (c : Option String), cursorIndex c = i → ps.length = i + m → 0 < m →
    paginationHelper (pagesBackend p0 ps) { listPrefix := p0, cursor := none } m c =
      some (ps.drop i).flatten
  | 0, _, _, _, _, h0 => absurd h0 (Nat.lt_irrefl 0)
  | m + 1, i, c, hc, hlen, _ => by
    rw [pagination_step p0 ps m c i hc]
    by_cases hm : m = 0
    · subst hm
      rw [if_pos (by simp; omega)]
      have hi : i < ps.length := by omega
      rw [List.getD_eq_getElem?_getD, List.getElem?_eq_getElem hi,
        List.drop_eq_getElem_cons hi, List.drop_eq_nil_of_le (by omega)]
      simp
    · rw [if_neg (by simp; omega)]
      rw [pagination_aux p0 ps m (i + 1) (some (String.mk (List.replicate (i + 1) 'c')))
        (by
          show (List.replicate (i + 1) 'c').length = i + 1
          exact List.length_replicate _ _)
        (by omega) (by omega)]
      show some (ps.getD i [] ++ (ps.drop (i + 1)).flatten) = some (ps.drop i).flatten
      have hi : i < ps.length := by omega
      rw [List.getD_eq_getElem?_getD, List.getElem?_eq_getElem hi,
        Option.getD_some, List.drop_eq_getElem_cons hi, List.flatten_cons]

/-! ## Tag dispatch of the part decoders -/

theorem matchesTypedRep_cons (c : Char) (r : List Char) (hw : isWordCharJS c = true) :
    matchesTypedRep (String.mk (c :: ':' :: r)) = true := by
  rw [show matchesTypedRep (String.mk (c :: ':' :: r)) =
    (isWordCharJS c && decide (':' = ':')) from rfl, hw]
  rfl

theorem partToKey_unknown_tag (c : Char) (r : List Char) (hw : isWordCharJS c = true)
    (h1 : ¬ c = 'n') (h2 : ¬ c = 'd') (h3 : ¬ c = 'b') (h4 : ¬ c = 's') :
    partToKey (String.mk (c :: ':' :: r)) = .ok (.str (String.mk (c :: ':' :: r))) := by
  unfold partToKey
  rw [matchesTypedRep_cons c r hw, if_pos rfl]
  show (if c = 'n' then Except.ok (JSValue.num (jsNumber (String.mk r)))
    else if c = 'd' then Except.ok (JSValue.date (jsDateParse (String.mk r)))
    else if c = 'b' then
      match b64decodeChars r with
      | some bs => Except.ok (JSValue.buf bs)
      | none => Except.error ()
    else if c = 's' then
      match decodeURIComponentChars r with
      | some cs => Except.ok (JSValue.str (String.mk cs))
      | none => Except.error ()
    else Except.ok (JSValue.str (String.mk (c :: ':' :: r)))) =
    Except.ok (JSValue.str (String.mk (c :: ':' :: r)))
  rw [if_neg h1, if_neg h2, if_neg h3, if_neg h4]

theorem cfPartToKey_unknown_tag (c : Char) (r : List Char) (hw : isWordCharJS c = true)
    (h1 : ¬ c = 'n') (h2 : ¬ c = 'd') (h3 : ¬ c = 'b') (h4 : ¬ c = 's') :
    cfStringPartToKey (String.mk (c :: ':' :: r)) = .ok .undef := by
  unfold cfStringPartToKey
  rw [matchesTypedRep_cons c r hw, if_pos rfl]
  show (if c = 'n' then Except.ok (JSValue.num (jsNumber (String.mk r)))
    else if c = 'd' then Except.ok (JSValue.date (jsDateParse (String.mk r)))
    else if c = 'b' then
      match b64decodeChars r with
      | some bs => Except.ok (JSValue.buf bs)
      | none => Except.error ()
    else if c = 's' then
      match decodeURIComponentChars r with
      | some cs => Except.ok (JSValue.str (String.mk cs))
      | none => Except.error ()
    else Except.ok JSValue.undef) = Except.ok JSValue.undef
  rw [if_neg h1, if_neg h2, if_neg h3, if_neg h4]

theorem partToKey_untagged (s : String) (hmt : matchesTypedRep s = false) :
    partToKey s = .ok (.str s) := by
  unfold partToKey
  rw [hmt]
  rfl

theorem cfPartToKey_untagged (s : String) (hmt : matchesTypedRep s = false) :
    cfStringPartToKey s = .ok (.str s) := by
  unfold cfStringPartToKey
  rw [hmt]
  rfl

theorem partToKey_tag_b (r : List Char) {bs : List Nat} (hb : b64decodeChars r = some bs) :
    partToKey (String.mk ('b' :: ':' :: r)) = .ok (.buf bs) := by
  rw [show partToKey (String.mk ('b' :: ':' :: r)) =
    (match b64decodeChars r with
     | some l => Except.ok (JSValue.buf l)
     | none => Except.error ()) from rfl, hb]

theorem partToKey_tag_s (r : List Char) {cs : List Char}
    (hs : decodeURIComponentChars r = some cs) :
    partToKey (String.mk ('s' :: ':' :: r)) = .ok (.str (String.mk cs)) := by
  rw [show partToKey (String.mk ('s' :: ':' :: r)) =
    (match decodeURIComponentChars r with
     | some l => Except.ok (JSValue.str (String.mk l))
     | none => Except.error ()) from rfl, hs]

/-! ## `set` with an `undefined` value -/

theorem storageAreaSet_none (V : Type) (encKey : JSValue → Except Unit String)
    (pack : V → String) (key : JSValue) :
    storageAreaSet encKey pack key none = storageAreaDelete encKey key := by
  unfold storageAreaSet storageAreaDelete
  cases throwForDisallowedKey key with
  | error e => rfl
  | ok u => cases u; rfl

theorem storageAreaSet_none_ops (V : Type) (encKey : JSValue → Except Unit String)
    (pack : V → String) (key : JSValue) (ops : List KVOp)
    (h : storageAreaSet encKey pack key none = .ok ops) :
    ∃ s, encKey key = .ok s ∧ ops = [.del s] := by
  unfold storageAreaSet at h
  cases hv : throwForDisallowedKey key with
  | error e => rw [hv] at h; exact absurd h (by simp)
  | ok u =>
    cases u
    rw [hv] at h
    cases he : encKey key with
    | error e => rw [he] at h; exact absurd h (by simp)
    | ok s =>
      rw [he] at h
      refine ⟨s, rfl, ?_⟩
      injection h with h1
      exact h1.symm

theorem kvStorageAreaSet_none_ops (V : Type) (pack : V → String) (key : JSValue)
    (ops : List KVOp) (h : kvStorageAreaSet pack key none = .ok ops) :
    ∃ s, encodeKeyE key = .ok s ∧ ops = [.del s] := by
  unfold kvStorageAreaSet at h
  cases he : encodeKeyE key with
  | error e => rw [he] at h; exact absurd h (by simp)
  | ok s =>
    rw [he] at h
    refine ⟨s, rfl, ?_⟩
    injection h with h1
    exact h1.symm

/-! ## The scanner only returns a value on a `>` -/

theorem scanKey_no_close (partFn : String → Except Unit JSValue) :
    ∀ (cs : List Char), (∀ c ∈ cs, ¬ c = '>') →
    ∀ (stack : List (List JSValue)) (p : List Char) (v : JSValue),
    ¬ scanKey partFn cs stack p = .ok v
  | [], _, stack, p, v => fun hcon => DecodeResult.noConfusion hcon
  | c :: cs, h, stack, p, v => by
    have hc := h c (List.mem_cons_self c cs)
    have hcs : ∀ x ∈ cs, ¬ x = '>' := fun x hx => h x (List.mem_cons_of_mem c hx)
    by_cases h1 : c = '<'
    · subst h1
      rw [scanKey_open]
      exact scanKey_no_close partFn cs hcs ([] :: stack) [] v
    · by_cases h2 : c = '|'
      · subst h2
        match stack, p with
        | stack, [] =>
          rw [show scanKey partFn ('|' :: cs) stack [] = scanKey partFn cs stack [] from rfl]
          exact scanKey_no_close partFn cs hcs stack [] v
        | [], e0 :: p' =>
          intro hcon
          rw [show scanKey partFn ('|' :: cs) [] (e0 :: p') = DecodeResult.typeError
            from rfl] at hcon
          exact DecodeResult.noConfusion hcon
        | t :: s, e0 :: p' =>
          rw [scanKey_pipe_cons]
          cases hres : partFn (String.mk (e0 :: p')) with
          | error e =>
            intro hcon
            exact DecodeResult.noConfusion hcon
          | ok w =>
            exact scanKey_no_close partFn cs hcs ((t ++ [w]) :: s) [] v
      · match stack with
        | [] =>
          have hb : scanKey partFn (c :: cs) [] p =
              (if c = '<' then scanKey partFn cs [[]] []
               else if c = '|' then
                 (if p = [] then scanKey partFn cs [] [] else DecodeResult.typeError)
               else if c = '>' then
                 (if p = [] then DecodeResult.ok .undef else DecodeResult.typeError)
               else scanKey partFn cs [] (p ++ [c])) := rfl
          rw [hb, if_neg h1, if_neg h2, if_neg hc]
          exact scanKey_no_close partFn cs hcs [] (p ++ [c]) v
        | t :: s =>
          rw [scanKey_other partFn h1 h2 hc]
          exact scanKey_no_close partFn cs hcs (t :: s) (p ++ [c]) v

/-! ## The claims -/

/-- C1: the claimed universal decode∘encode round trip holds for the current
`key-encoding.ts` codec exactly as stated (views come back as a buffer of the
viewed bytes, dates at millisecond precision, everything else structurally
equal), but the repository's second, legacy codec (`cf-storage-area-keys.ts`,
named by the claim's sources) round-trips a typed-array view to its *entire
underlying buffer* instead of the viewed region, so the claim's "exactly two
permitted losses" description is wrong for it.  Amended statement: both
round trips, each against its own codec's expected value. -/
theorem C1_round_trip_amended (v : JSValue) (h : isAllowedKeyVal v = true) :
    decodeAfterEncode v = some (.ok (expectedRoundTrip v)) ∧
    cfDecodeAfterEncode v = some (.ok (cfExpectedRoundTrip v)) :=
  ⟨decodeAfterEncode_spec v h, cfDecodeAfterEncode_spec v h⟩

theorem C1_witness :
    isAllowedKeyVal (.arr [.str "foo", .view [10, 20, 30, 40] 1 2]) = true ∧
    (decodeAfterEncode (.arr [.str "foo", .view [10, 20, 30, 40] 1 2]) =
        some (.ok (expectedRoundTrip (.arr [.str "foo", .view [10, 20, 30, 40] 1 2]))) ∧
      cfDecodeAfterEncode (.arr [.str "foo", .view [10, 20, 30, 40] 1 2]) =
        some (.ok (cfExpectedRoundTrip (.arr [.str "foo", .view [10, 20, 30, 40] 1 2])))) :=
  ⟨by decide, C1_round_trip_amended (.arr [.str "foo", .view [10, 20, 30, 40] 1 2])
    (by decide)⟩

/-- C1 counterexample: under the legacy codec a view of bytes 20,30 inside the
buffer 10,20,30,40 round-trips to the whole 4-byte buffer, not to the claimed
"blob with the view's bytes". -/
theorem C1_counterexample :
    cfDecodeAfterEncode (.view [10, 20, 30, 40] 1 2) =
      some (.ok (.buf [10, 20, 30, 40])) ∧
    expectedRoundTrip (.view [10, 20, 30, 40] 1 2) = .buf [20, 30] ∧
    ¬ cfDecodeAfterEncode (.view [10, 20, 30, 40] 1 2) =
        some (.ok (expectedRoundTrip (.view [10, 20, 30, 40] 1 2))) := by
  refine ⟨rfl, rfl, ?_⟩
  intro hcon
  rw [show cfDecodeAfterEncode (.view [10, 20, 30, 40] 1 2) =
      some (.ok (.buf [10, 20, 30, 40])) from rfl,
    show expectedRoundTrip (.view [10, 20, 30, 40] 1 2) = .buf [20, 30] from rfl] at hcon
  simp at hcon

/-- C2: the decoder does reject some malformed inputs with the
`Error('Malformed key')` path — provably, the scanner can only return a value
after consuming a `>`, and an unclosed `<` ends in `malformed` — but the
claim's universal "never returns silently, never truncates, always
MalformedKeyError" is wrong: a bare `">"` silently returns `undefined` (the
`stack.shift()` of an empty stack), `"a>"` dies with a `TypeError` (not a
MalformedKeyError), and `"<a>x"` silently returns `["a"]`, dropping the
trailing characters.  Amended statement: the no-return-without-`>` guarantee
plus the actual outcomes on those inputs. -/
theorem C2_decode_malformed_amended :
    (∀ (cs : List Char), (∀ c ∈ cs, ¬ c = '>') →
        ∀ (stack : List (List JSValue)) (p : List Char) (v : JSValue),
        ¬ scanKey partToKey cs stack p = .ok v) ∧
    keyStringToKey (String.mk ['<', 'a']) = .malformed ∧
    keyStringToKey (String.mk ['>']) = .ok .undef ∧
    keyStringToKey (String.mk ['a', '>']) = .typeError ∧
    keyStringToKey (String.mk ['<', 'a', '>', 'x']) = .ok (.arr [.str "a"]) :=
  ⟨scanKey_no_close partToKey, rfl, rfl, rfl, rfl⟩

theorem C2_witness : (∀ c ∈ ['<', 'a'], ¬ c = '>') ∧
    ¬ scanKey partToKey ['<', 'a'] [] [] = .ok (.str "a") :=
  ⟨by decide, C2_decode_malformed_amended.1 ['<', 'a'] (by decide) [] [] (.str "a")⟩

/-- C2 counterexample: `">"` and `"<a>x"` are outside the encoder's range but
decode silently (to `undefined` and to the truncated `["a"]`), not with the
claimed MalformedKeyError. -/
theorem C2_counterexample :
    keyStringToKey (String.mk ['>']) = .ok .undef ∧
    ¬ keyStringToKey (String.mk ['>']) = .malformed ∧
    keyStringToKey (String.mk ['<', 'a', '>', 'x']) = .ok (.arr [.str "a"]) ∧
    ¬ keyStringToKey (String.mk ['<', 'a', '>', 'x']) = .malformed :=
  ⟨rfl, fun hcon => DecodeResult.noConfusion hcon, rfl,
    fun hcon => DecodeResult.noConfusion hcon⟩

/-- C3: confirmed — a non-empty string that does not match `^\w:` and has no
`<`, `|`, `>` encodes to itself, and in particular `"hello"` does. -/
theorem C3_plain_string_identity :
    (∀ s : String, ¬ s = "" → matchesTypedRep s = false → hasDelim s = false →
        encodeKeyE (.str s) = .ok s) ∧
    encodeKeyE (.str "hello") = .ok "hello" := by
  constructor
  · intro s hne hmt hdel
    have hcond : (s = "" || matchesTypedRep s || hasDelim s) = false := by
      rw [hmt, hdel]
      simp [hne]
    show Except.ok (keyToKeyString (.str s)) = Except.ok s
    rw [keyEnc_str_plain (by intro hx; rw [hcond] at hx; exact Bool.false_ne_true hx)]
  · rfl

theorem C3_witness : (¬ ("hello" : String) = "" ∧ matchesTypedRep "hello" = false ∧
      hasDelim "hello" = false) ∧ encodeKeyE (.str "hello") = .ok "hello" :=
  ⟨⟨by decide, by decide, by decide⟩,
    C3_plain_string_identity.1 "hello" (by decide) (by decide) (by decide)⟩

/-- C4: confirmed — the documented canonical encodings hold exactly, and the
empty-string key encodes to `"s:"`, never to the empty string. -/
theorem C4_canonical_encodings :
    encodeKeyE (.num (.int 300)) = .ok "n:300" ∧
    encodeKeyE (.date (some 0)) = .ok "d:1970-01-01T00:00:00.000Z" ∧
    encodeKeyE (.arr [.str "foo", .str "bar", .num (.int 3)]) = .ok "<foo|bar|n:3>" ∧
    encodeKeyE (.arr [.str "foo", .arr [.num (.int 1), .num (.int 2)]]) =
      .ok "<foo|<n:1|n:2>>" ∧
    encodeKeyE (.str "") = .ok "s:" ∧
    ¬ encodeKeyE (.str "") = .ok "" := by
  refine ⟨rfl, rfl, rfl, rfl, rfl, ?_⟩
  intro hcon
  rw [show encodeKeyE (.str "") = .ok "s:" from rfl] at hcon
  injection hcon with h1
  exact absurd h1 (by decide)

/-- C5: confirmed — a string containing a reserved delimiter encodes to
`s:` plus its percent-encoding and round-trips exactly, in particular
`"with|reserved"`. -/
theorem C5_reserved_string_roundtrip :
    (∀ s : String, hasDelim s = true →
        encodeKeyE (.str s) = .ok ("s:" ++ encodeURIComponent s) ∧
        decodeAfterEncode (.str s) = some (.ok (.str s))) ∧
    decodeAfterEncode (.str "with|reserved") = some (.ok (.str "with|reserved")) := by
  constructor
  · intro s hd
    have hcond : (s = "" || matchesTypedRep s || hasDelim s) = true := by
      rw [hd]
      simp
    constructor
    · show Except.ok (keyToKeyString (.str s)) = _
      rw [keyEnc_str_tagged hcond]
    · exact decodeAfterEncode_spec (.str s) rfl
  · exact decodeAfterEncode_spec (.str "with|reserved") rfl

theorem C5_witness : hasDelim "with|reserved" = true ∧
    (encodeKeyE (.str "with|reserved") =
        .ok ("s:" ++ encodeURIComponent "with|reserved") ∧
      decodeAfterEncode (.str "with|reserved") = some (.ok (.str "with|reserved"))) :=
  ⟨by decide, C5_reserved_string_roundtrip.1 "with|reserved" (by decide)⟩

/-- C6: tag dispatch works as claimed for the `n`/`d`/`b`/`s` tags and for
untagged strings in both decoders, but on a `^\w:` match with an
*unrecognized* tag character only `key-encoding.ts`'s `partToKey` returns the
substring verbatim; the legacy `stringPartToKey` named by the claim's sources
falls through its `switch` and returns `undefined`.  Amended statement: the
full dispatch table of both part decoders. -/
theorem C6_part_dispatch_amended :
    (∀ s : String, matchesTypedRep s = false →
        partToKey s = .ok (.str s) ∧ cfStringPartToKey s = .ok (.str s)) ∧
    (∀ r : List Char,
        partToKey (String.mk ('n' :: ':' :: r)) = .ok (.num (jsNumber (String.mk r))) ∧
        partToKey (String.mk ('d' :: ':' :: r)) =
          .ok (.date (jsDateParse (String.mk r)))) ∧
    (∀ (r : List Char) (bs : List Nat), b64decodeChars r = some bs →
        partToKey (String.mk ('b' :: ':' :: r)) = .ok (.buf bs)) ∧
    (∀ (r cs : List Char), decodeURIComponentChars r = some cs →
        partToKey (String.mk ('s' :: ':' :: r)) = .ok (.str (String.mk cs))) ∧
    (∀ (c : Char) (r : List Char), isWordCharJS c = true →
        ¬ c = 'n' → ¬ c = 'd' → ¬ c = 'b' → ¬ c = 's' →
        partToKey (String.mk (c :: ':' :: r)) = .ok (.str (String.mk (c :: ':' :: r))) ∧
        cfStringPartToKey (String.mk (c :: ':' :: r)) = .ok .undef) := by
  refine ⟨?_, ?_, ?_, ?_, ?_⟩
  · intro s hmt
    exact ⟨partToKey_untagged s hmt, cfPartToKey_untagged s hmt⟩
  · intro r
    exact ⟨rfl, rfl⟩
  · intro r bs hb
    exact partToKey_tag_b r hb
  · intro r cs hs
    exact partToKey_tag_s r hs
  · intro c r hw h1 h2 h3 h4
    exact ⟨partToKey_unknown_tag c r hw h1 h2 h3 h4,
      cfPartToKey_unknown_tag c r hw h1 h2 h3 h4⟩

theorem C6_witness : (isWordCharJS 'x' = true ∧ ¬ 'x' = 'n' ∧ ¬ 'x' = 'd' ∧
      ¬ 'x' = 'b' ∧ ¬ 'x' = 's') ∧
    (partToKey (String.mk ('x' :: ':' :: "foo".data)) =
        .ok (.str (String.mk ('x' :: ':' :: "foo".data))) ∧
      cfStringPartToKey (String.mk ('x' :: ':' :: "foo".data)) = .ok .undef) :=
  ⟨⟨by decide, by decide, by decide, by decide, by decide⟩,
    C6_part_dispatch_amended.2.2.2.2 'x' "foo".data (by decide) (by decide) (by decide)
      (by decide) (by decide)⟩

/-- C6 counterexample: `"x:foo"` matches `^\w:` with no recognized tag; the
claim says it is returned verbatim, which holds for `partToKey` but not for
the legacy `stringPartToKey`, which returns `undefined`. -/
theorem C6_counterexample :
    matchesTypedRep "x:foo" = true ∧
    partToKey "x:foo" = .ok (.str "x:foo") ∧
    cfStringPartToKey "x:foo" = .ok .undef ∧
    ¬ cfStringPartToKey "x:foo" = .ok (.str "x:foo") := by
  refine ⟨rfl, rfl, rfl, ?_⟩
  intro hcon
  rw [show cfStringPartToKey "x:foo" = .ok JSValue.undef from rfl] at hcon
  injection hcon with h1
  exact JSValue.noConfusion h1

/-- C7: the validator accepts strings, numbers, Dates, buffers, views and
arrays (checking only "is array", as claimed) and rejects everything else,
but the claim's "finite number" restriction is wrong: `typeof key ===
'number'` accepts every number, so NaN, Infinity and -Infinity all pass the
validator.  Amended statement: the exact acceptance table and the
accept-iff-`isAllowedAsAKey` characterization. -/
theorem C7_validator_amended :
    (∀ n : JSNum, throwForDisallowedKey (.num n) = .ok ()) ∧
    (∀ s : String, throwForDisallowedKey (.str s) = .ok ()) ∧
    (∀ ms : Option Int, throwForDisallowedKey (.date ms) = .ok ()) ∧
    (∀ bs : List Nat, throwForDisallowedKey (.buf bs) = .ok ()) ∧
    (∀ (b : List Nat) (o l : Nat), throwForDisallowedKey (.view b o l) = .ok ()) ∧
    (∀ es : List JSValue, throwForDisallowedKey (.arr es) = .ok ()) ∧
    throwForDisallowedKey .undef =
      .error "kv-storage: The given value is not allowed as a key" ∧
    throwForDisallowedKey .nullv =
      .error "kv-storage: The given value is not allowed as a key" ∧
    (∀ b : Bool, throwForDisallowedKey (.bool b) =
      .error "kv-storage: The given value is not allowed as a key") ∧
    throwForDisallowedKey .obj =
      .error "kv-storage: The given value is not allowed as a key" ∧
    (∀ v : JSValue, throwForDisallowedKey v = .ok () ↔ isAllowedAsAKey v = true) := by
  refine ⟨fun n => rfl, fun s => rfl, fun ms => rfl, fun bs => rfl, fun b o l => rfl,
    fun es => rfl, rfl, rfl, fun b => rfl, rfl, ?_⟩
  intro v
  constructor
  · intro h
    cases hA : isAllowedAsAKey v with
    | false =>
      unfold throwForDisallowedKey at h
      rw [hA] at h
      simp at h
    | true => rfl
  · intro hA
    unfold throwForDisallowedKey
    rw [hA]
    rfl

theorem C7_witness : isAllowedAsAKey (.str "k") = true ∧
    throwForDisallowedKey (.str "k") = .ok () :=
  ⟨by decide, (C7_validator_amended.2.2.2.2.2.2.2.2.2.2 (.str "k")).mpr (by decide)⟩

/-- C7 counterexample: NaN, Infinity and -Infinity all pass the validator,
contradicting the claim that every non-finite number is rejected. -/
theorem C7_counterexample :
    throwForDisallowedKey (.num .nan) = .ok () ∧
    throwForDisallowedKey (.num .inf) = .ok () ∧
    throwForDisallowedKey (.num .negInf) = .ok () := ⟨rfl, rfl, rfl⟩

/-- C8: the claimed length-exact copy of the viewed region
(`byteOffset`…`byteOffset+byteLength`) is what the current `valueToKey` of
`key-encoding.ts` does, but the legacy `keyToSafeKey` named by the claim's
sources copies the *whole underlying buffer* (`new Uint8Array(input.buffer)`),
ignoring offset and length.  Amended statement: both canonicalizations, plus
length-exactness of the slicing one. -/
theorem C8_view_normalization_amended :
    (∀ (buffer : List Nat) (off len : Nat),
        valueToKey (.view buffer off len) = .ok (.buf ((buffer.drop off).take len)) ∧
        keyToSafeKey (.view buffer off len) = .ok (.buf buffer)) ∧
    (∀ (buffer : List Nat) (off len : Nat), off + len ≤ buffer.length →
        ((buffer.drop off).take len).length = len) := by
  constructor
  · intro buffer off len
    exact ⟨rfl, rfl⟩
  · intro buffer off len h
    rw [List.length_take, List.length_drop]
    omega

theorem C8_witness : 1 + 2 ≤ ([10, 20, 30, 40] : List Nat).length ∧
    ((([10, 20, 30, 40] : List Nat).drop 1).take 2).length = 2 :=
  ⟨by decide, C8_view_normalization_amended.2 [10, 20, 30, 40] 1 2 (by decide)⟩

/-- C8 counterexample: the legacy canonicalization of a 2-byte view at offset
1 of a 4-byte buffer is the whole 4-byte buffer, not the claimed copy of
exactly the viewed region. -/
theorem C8_counterexample :
    keyToSafeKey (.view [10, 20, 30, 40] 1 2) = .ok (.buf [10, 20, 30, 40]) ∧
    ¬ keyToSafeKey (.view [10, 20, 30, 40] 1 2) = .ok (.buf [20, 30]) := by
  refine ⟨rfl, ?_⟩
  intro hcon
  rw [show keyToSafeKey (.view [10, 20, 30, 40] 1 2) = .ok (.buf [10, 20, 30, 40])
    from rfl] at hcon
  simp at hcon

/-- C9: confirmed — over a consistent paged backend that indexes its pages by
cursor, reapplies the caller's prefix on every round trip (the backend
answers a sentinel page to any call with the wrong prefix, so a correct total
listing certifies the reapplication) and reports completion on the last page,
the pagination helper started with no cursor returns exactly the
concatenation of all pages in order. -/
theorem C9_pagination_complete (p0 : Option String) (ps : List (List String))
    (h : 0 < ps.length) :
    paginationHelper (pagesBackend p0 ps) { listPrefix := p0, cursor := none }
      ps.length none = some ps.flatten := by
  have haux := pagination_aux p0 ps ps.length 0 none rfl (by omega) h
  simpa using haux

theorem C9_witness :
    0 < ([["a", "b"], ["c", "d"], ["e", "f"]] : List (List String)).length ∧
    paginationHelper (pagesBackend (some "pre") [["a", "b"], ["c", "d"], ["e", "f"]])
      { listPrefix := some "pre", cursor := none } 3 none =
      some ["a", "b", "c", "d", "e", "f"] :=
  ⟨by decide,
    C9_pagination_complete (some "pre") [["a", "b"], ["c", "d"], ["e", "f"]] (by decide)⟩

/-- C10: confirmed — `set(key, undefined)` behaves exactly like `delete(key)`
in `CloudflareStorageArea` (same validation, then a single `kv.delete` of the
encoded key), and in both storage-area implementations a successful
`set(key, undefined)` issues exactly one delete of `encodeKey(key)` and never
a put. -/
theorem C10_set_undefined_deletes :
    (∀ (V : Type) (encKey : JSValue → Except Unit String) (pack : V → String)
        (key : JSValue),
        storageAreaSet encKey pack key none = storageAreaDelete encKey key) ∧
    (∀ (V : Type) (encKey : JSValue → Except Unit String) (pack : V → String)
        (key : JSValue) (ops : List KVOp),
        storageAreaSet encKey pack key none = .ok ops →
        ∃ s, encKey key = .ok s ∧ ops = [.del s]) ∧
    (∀ (V : Type) (pack : V → String) (key : JSValue) (ops : List KVOp),
        kvStorageAreaSet pack key none = .ok ops →
        ∃ s, encodeKeyE key = .ok s ∧ ops = [.del s]) :=
  ⟨storageAreaSet_none, storageAreaSet_none_ops, kvStorageAreaSet_none_ops⟩

theorem C10_witness :
    storageAreaSet (fun _ => .ok "K") (fun _ : Unit => "") (.str "a") none =
      .ok [.del "K"] ∧
    ∃ s, (fun _ : JSValue => (Except.ok "K" : Except Unit String)) (.str "a") = .ok s ∧
      ([KVOp.del "K"] : List KVOp) = [.del s] :=
  ⟨rfl, C10_set_undefined_deletes.2.1 Unit (fun _ => .ok "K") (fun _ => "") (.str "a")
    [.del "K"] rfl⟩

end KVStorage
